import Mathlib

/-!
# Verification of the Kirchhoff-and-TSP circuit simulator core

Shallow embedding of the two computational engines of the repository:

* `tsp_algorithms.py` — the `TSPSolver` class (nearest neighbor, genetic
  algorithm, Held–Karp dynamic programming, 2-opt), and
* `kirchhoff_module.py` — the matrix-assembly and solving core of
  `KirchhoffSimulator.calculate_circuit`.

Modelling conventions:

* Python floats are modelled by `ℚ`; the `float('inf')` sentinel returned by
  `edges.get(..., float('inf'))` is modelled by `⊤` in `WithTop ℚ`
  (`⊤ + x = ⊤`, and `x < ⊤ ↔ x ≠ ⊤`, matching IEEE `inf` arithmetic and
  comparisons for the operations the code performs).
* City objects carry an opaque identity; they are modelled by `ℕ`.
* Python's `set(self.cities)` iteration order is implementation defined; it is
  modelled by `List.dedup` order.  All theorems about it assume a
  duplicate-free city list, under which the choice is irrelevant.
* `random` calls are modelled by an explicit oracle (`GARandom`) supplying each
  drawn value, mirroring the spec's injectable-random-source design note.
-/

/- Rational arithmetic is `@[irreducible]` upstream; evaluation of the
embedded algorithms on the concrete instances below needs it unfolded. -/
attribute [local semireducible] Rat.add Rat.mul Rat.sub Rat.inv

namespace TSPSim

/-- The cost/weight domain: rationals extended with the `float('inf')`
sentinel. -/
abbrev Cost := WithTop ℚ

/-- Embedding of the `TSPSolver` class state: `cities` (list of City objects,
modelled by their ids) and `edges` (the `{(city1, city2): weight}` dict,
modelled as an association list; Python dict keys are unique). -/
structure TSPSolver where
  cities : List ℕ
  edges : List ((ℕ × ℕ) × ℚ)

namespace TSPSolver

/-- `get_distance`: `self.edges.get((city1, city2), float('inf'))`. -/
def get_distance (s : TSPSolver) (city1 city2 : ℕ) : Cost :=
  match s.edges.lookup (city1, city2) with
  | some w => (w : Cost)
  | none => ⊤

/-- `calculate_path_cost`: sum over `i` of the distance from `path[i]` to
`path[(i + 1) % len(path)]`. -/
def calculate_path_cost (s : TSPSolver) (path : List ℕ) : Cost :=
  ((List.range path.length).map
    (fun i => s.get_distance (path.getD i 0) (path.getD ((i + 1) % path.length) 0))).sum

end TSPSolver

/-- Cost of an open walk: sum of the distances along consecutive pairs, with
no wrap-around edge.  Helper used to reason about `calculate_path_cost`. -/
def chainCost (d : ℕ → ℕ → Cost) : List ℕ → Cost
  | [] => 0
  | [_] => 0
  | a :: b :: t => d a b + chainCost d (b :: t)

@[simp] theorem chainCost_nil (d : ℕ → ℕ → Cost) : chainCost d [] = 0 := rfl

@[simp] theorem chainCost_single (d : ℕ → ℕ → Cost) (a : ℕ) : chainCost d [a] = 0 := rfl

theorem chainCost_cons_cons (d : ℕ → ℕ → Cost) (a b : ℕ) (t : List ℕ) :
    chainCost d (a :: b :: t) = d a b + chainCost d (b :: t) := rfl

/-- `chainCost` over a list extended on the right by one element. -/
theorem chainCost_append_singleton (d : ℕ → ℕ → Cost) :
    ∀ (l : List ℕ) (x : ℕ), l ≠ [] →
      chainCost d (l ++ [x]) = chainCost d l + d (l.getLastD 0) x
  | [], _, h => absurd rfl h
  | [a], x, _ => by simp [chainCost]
  | a :: b :: t, x, _ => by
    have ih := chainCost_append_singleton d (b :: t) x (by simp)
    have h1 : chainCost d ((a :: b :: t) ++ [x]) = d a b + chainCost d ((b :: t) ++ [x]) := rfl
    rw [h1, ih, chainCost_cons_cons]
    simp only [List.getLastD_cons]
    rw [add_assoc]

/-- The open-walk cost along indexed positions `0, 1, …, k-1` of a list. -/
theorem sum_range_map_getD_eq_chainCost (d : ℕ → ℕ → Cost) :
    ∀ p : List ℕ,
      ((List.range (p.length - 1)).map
        (fun i => d (p.getD i 0) (p.getD (i + 1) 0))).sum = chainCost d p
  | [] => by simp
  | [a] => by simp
  | a :: b :: t => by
    have ih := sum_range_map_getD_eq_chainCost d (b :: t)
    have hlen : (a :: b :: t).length - 1 = ((b :: t).length - 1) + 1 := by
      simp [Nat.succ_sub_one]
    rw [hlen, List.range_succ_eq_map]
    simp only [List.map_cons, List.map_map, List.sum_cons]
    rw [chainCost_cons_cons d a b t, ← ih]
    congr 1

theorem getD_length_sub_one_eq_getLastD :
    ∀ (p : List ℕ), p ≠ [] → p.getD (p.length - 1) 0 = p.getLastD 0
  | [], h => absurd rfl h
  | [a], _ => rfl
  | a :: b :: t, _ => by
    have ih := getD_length_sub_one_eq_getLastD (b :: t) (by simp)
    simp only [List.length_cons, Nat.succ_sub_one] at ih ⊢
    simpa using ih

/-- Decomposition of the cyclic tour cost: cost of the open walk plus the
closing edge from the last city back to the first. -/
theorem calculate_path_cost_eq_chainCost (s : TSPSolver) (p : List ℕ) (hp : p ≠ []) :
    s.calculate_path_cost p
      = chainCost s.get_distance p + s.get_distance (p.getLastD 0) (p.getD 0 0) := by
  have hlen : p.length = (p.length - 1) + 1 := (Nat.succ_pred_eq_of_pos (List.length_pos.2 hp)).symm
  unfold TSPSolver.calculate_path_cost
  rw [hlen, List.range_succ, List.map_append, List.sum_append]
  congr 1
  · rw [← sum_range_map_getD_eq_chainCost s.get_distance p]
    apply congrArg
    apply List.map_congr_left
    intro i hi
    have hi' : i < p.length - 1 := List.mem_range.1 hi
    have h1 : i + 1 < p.length := by omega
    have : (i + 1) % p.length = i + 1 := Nat.mod_eq_of_lt h1
    rw [← hlen, this]
  · simp only [List.map_cons, List.map_nil, List.sum_cons, List.sum_nil, add_zero, ← hlen,
      Nat.mod_self]
    rw [getD_length_sub_one_eq_getLastD p hp]

end TSPSim

namespace TSPSim

/-! ## `nearest_neighbor` -/

namespace TSPSolver

/-- The inner `for city in unvisited` scan of `nearest_neighbor`: starting from
`nearest = None, min_dist = inf`, replace the candidate whenever a strictly
smaller distance is found (ties keep the first city encountered). -/
def findNearest (s : TSPSolver) (current : ℕ) (unvisited : List ℕ) : Option ℕ × Cost :=
  unvisited.foldl
    (fun acc city =>
      if s.get_distance current city < acc.2 then (some city, s.get_distance current city)
      else acc)
    ((none : Option ℕ), (⊤ : Cost))

/-- The `while unvisited:` loop of `nearest_neighbor`.  The loop consumes one
city of `unvisited` per iteration, so `unvisited.length` is enough fuel; the
`break` on `nearest is None` is the `none` branch. -/
def nnLoop (s : TSPSolver) : ℕ → ℕ → List ℕ → List ℕ
  | 0, _, _ => []
  | fuel + 1, current, unvisited =>
    if unvisited.isEmpty then []
    else
      match (s.findNearest current unvisited).1 with
      | none => []
      | some nearest => nearest :: nnLoop s fuel nearest (unvisited.erase nearest)

/-- `nearest_neighbor(start_city=None)`.  `set(self.cities)` is modelled by
`dedup` (iteration order of a Python set is implementation defined; theorems
assume a duplicate-free city list, where the choice disappears).  A
`start_city` absent from the set would raise `KeyError` in Python; the claims
only use the default `None`, which always succeeds. -/
def nearest_neighbor (s : TSPSolver) (start_city : Option ℕ) : List ℕ × Cost :=
  match s.cities with
  | [] => ([], 0)
  | c₀ :: _ =>
    let start := match start_city with | none => c₀ | some c => c
    let unvisited := (s.cities.dedup).erase start
    let path := start :: nnLoop s unvisited.length start unvisited
    (path, s.calculate_path_cost path)

/-- Once the scan holds a `some` candidate it never returns to `none`. -/
theorem findNearest_foldl_isSome (s : TSPSolver) (current : ℕ) :
    ∀ (l : List ℕ) (c : ℕ) (m : Cost),
      (l.foldl
        (fun acc city =>
          if s.get_distance current city < acc.2 then (some city, s.get_distance current city)
          else acc) ((some c : Option ℕ), m)).1.isSome
  | [], _, _ => rfl
  | x :: t, c, m => by
    simp only [List.foldl_cons]
    by_cases h : s.get_distance current x < m
    · rw [if_pos h]; exact findNearest_foldl_isSome s current t x _
    · rw [if_neg h]; exact findNearest_foldl_isSome s current t c m

/-- If the scan finds no candidate, every unvisited city is at distance `∞`
from the current city. -/
theorem findNearest_eq_none (s : TSPSolver) (current : ℕ) :
    ∀ l : List ℕ, (s.findNearest current l).1 = none →
      ∀ c ∈ l, s.get_distance current c = ⊤ := by
  intro l
  unfold findNearest
  induction l with
  | nil => intro _ c hc; cases hc
  | cons x t ih =>
    intro hnone c hc
    simp only [List.foldl_cons] at hnone
    by_cases h : s.get_distance current x < (⊤ : Cost)
    · rw [if_pos h] at hnone
      have := findNearest_foldl_isSome s current t x (s.get_distance current x)
      rw [hnone] at this
      cases this
    · rw [if_neg h] at hnone
      have hx : s.get_distance current x = ⊤ := by
        by_contra hne
        exact h (lt_top_iff_ne_top.2 hne)
      rcases List.mem_cons.1 hc with hc | hc
      · exact hc ▸ hx
      · exact ih hnone c hc

/-- A found candidate is a member of the scanned list. -/
theorem findNearest_eq_some (s : TSPSolver) (current : ℕ) :
    ∀ (l : List ℕ) (b : Option ℕ) (m : Cost) (c : ℕ),
      (l.foldl
        (fun acc city =>
          if s.get_distance current city < acc.2 then (some city, s.get_distance current city)
          else acc) (b, m)).1 = some c → b = some c ∨ c ∈ l
  | [], b, m, c => fun h => Or.inl h
  | x :: t, b, m, c => by
    intro h
    simp only [List.foldl_cons] at h
    by_cases hx : s.get_distance current x < m
    · rw [if_pos hx] at h
      rcases findNearest_eq_some s current t _ _ c h with h' | h'
      · right
        injection h' with h''
        subst h''
        exact List.mem_cons_self x t
      · exact Or.inr (List.mem_cons_of_mem x h')
    · rw [if_neg hx] at h
      rcases findNearest_eq_some s current t _ _ c h with h' | h'
      · exact Or.inl h'
      · exact Or.inr (List.mem_cons_of_mem x h')

theorem findNearest_mem (s : TSPSolver) (current : ℕ) (l : List ℕ) (c : ℕ)
    (h : (s.findNearest current l).1 = some c) : c ∈ l := by
  rcases findNearest_eq_some s current l none ⊤ c h with h' | h'
  · cases h'
  · exact h'

/-- Everything the loop visits comes from `unvisited`. -/
theorem nnLoop_subset (s : TSPSolver) :
    ∀ (fuel current : ℕ) (unvisited : List ℕ),
      ∀ x ∈ nnLoop s fuel current unvisited, x ∈ unvisited
  | 0, _, _ => by intro x hx; cases hx
  | fuel + 1, current, unvisited => by
    intro x hx
    unfold nnLoop at hx
    by_cases he : unvisited.isEmpty
    · rw [if_pos he] at hx; cases hx
    · rw [if_neg he] at hx
      rcases hn : (s.findNearest current unvisited).1 with _ | nearest
      · rw [hn] at hx; cases hx
      · rw [hn] at hx
        rcases List.mem_cons.1 hx with hx | hx
        · exact hx ▸ findNearest_mem s current unvisited nearest hn
        · exact List.erase_subset _ _ (nnLoop_subset s fuel nearest _ x hx)

/-- The loop never revisits a city. -/
theorem nnLoop_nodup (s : TSPSolver) :
    ∀ (fuel current : ℕ) (unvisited : List ℕ), unvisited.Nodup →
      (nnLoop s fuel current unvisited).Nodup
  | 0, _, _ => fun _ => List.nodup_nil
  | fuel + 1, current, unvisited => by
    intro hnd
    unfold nnLoop
    by_cases he : unvisited.isEmpty
    · rw [if_pos he]; exact List.nodup_nil
    · rw [if_neg he]
      rcases hn : (s.findNearest current unvisited).1 with _ | nearest
      · exact List.nodup_nil
      · refine List.nodup_cons.2 ⟨fun hmem => ?_, nnLoop_nodup s fuel nearest _ (hnd.erase _)⟩
        exact hnd.not_mem_erase (nnLoop_subset s fuel nearest _ nearest hmem)

end TSPSolver

end TSPSim

namespace TSPSim

namespace TSPSolver

/-- Main behaviour of the greedy loop: either it consumes all of `unvisited`,
or it stops early with every still-unvisited city at distance `∞` from the
last city it reached (`current` if it never moved). -/
theorem nnLoop_spec (s : TSPSolver) :
    ∀ (fuel current : ℕ) (unvisited : List ℕ),
      unvisited.length ≤ fuel → unvisited.Nodup →
        (nnLoop s fuel current unvisited).length = unvisited.length ∨
        ((nnLoop s fuel current unvisited).length < unvisited.length ∧
          ∀ u ∈ unvisited, u ∉ nnLoop s fuel current unvisited →
            s.get_distance ((current :: nnLoop s fuel current unvisited).getLastD 0) u = ⊤)
  | 0, current, unvisited => by
    intro hfuel _
    left
    have : unvisited = [] := List.length_eq_zero.1 (Nat.le_zero.1 hfuel)
    subst this
    rfl
  | fuel + 1, current, unvisited => by
    intro hfuel hnd
    by_cases he : unvisited.isEmpty
    · left
      have : unvisited = [] := List.isEmpty_iff.1 he
      subst this
      simp [nnLoop]
    · have hne : unvisited ≠ [] := fun h => he (h ▸ rfl)
      have hpos : 0 < unvisited.length := List.length_pos.2 hne
      rcases hn : (s.findNearest current unvisited).1 with _ | nearest
      · right
        have hres : nnLoop s (fuel + 1) current unvisited = [] := by
          unfold nnLoop; rw [if_neg he, hn]
        rw [hres]
        refine ⟨by simpa using hpos, fun u hu _ => ?_⟩
        simpa using findNearest_eq_none s current unvisited hn u hu
      · have hmem : nearest ∈ unvisited := findNearest_mem s current unvisited nearest hn
        have hres : nnLoop s (fuel + 1) current unvisited
            = nearest :: nnLoop s fuel nearest (unvisited.erase nearest) := by
          conv_lhs => rw [nnLoop]
          rw [if_neg he, hn]
        have hlen_erase : (unvisited.erase nearest).length = unvisited.length - 1 :=
          List.length_erase_of_mem hmem
        have hfuel' : (unvisited.erase nearest).length ≤ fuel := by omega
        rcases nnLoop_spec s fuel nearest (unvisited.erase nearest) hfuel' (hnd.erase _)
          with hfull | ⟨hlt, hunreach⟩
        · left
          rw [hres]
          simp only [List.length_cons, hfull, hlen_erase]
          omega
        · right
          rw [hres]
          refine ⟨by simp only [List.length_cons]; omega, fun u hu hnotmem => ?_⟩
          have hu_ne : u ≠ nearest := fun h => hnotmem (h ▸ List.mem_cons_self _ _)
          have hu_not_rest : u ∉ nnLoop s fuel nearest (unvisited.erase nearest) :=
            fun h => hnotmem (List.mem_cons_of_mem _ h)
          have hu_erase : u ∈ unvisited.erase nearest := (List.mem_erase_of_ne hu_ne).2 hu
          have := hunreach u hu_erase hu_not_rest
          simpa [List.getLastD_cons] using this

end TSPSolver

end TSPSim

namespace TSPSim

namespace TSPSolver

/-- Shape of `nearest_neighbor(start_city=None)` on a duplicate-free,
non-empty city list. -/
theorem nearest_neighbor_none_eq (s : TSPSolver) (c₀ : ℕ) (rest : List ℕ)
    (hc : s.cities = c₀ :: rest) (hnd : s.cities.Nodup) :
    s.nearest_neighbor none
      = (c₀ :: nnLoop s rest.length c₀ rest,
         s.calculate_path_cost (c₀ :: nnLoop s rest.length c₀ rest)) := by
  have hnd' : (c₀ :: rest).Nodup := hc ▸ hnd
  simp only [nearest_neighbor, hc, hnd'.dedup, List.erase_cons_head]

end TSPSolver

/-- **C2, counterexample.** Cities `[0, 1, 2]` with edges `(0,1) ↦ 1` and
`(0,2) ↦ 2`: nearest neighbor visits `0`, then `1` (strictly nearest), then
stops because `2` is unreachable from `1`.  The omitted city `2` *is*
reachable from the visited city `0` (distance `2 ≠ ∞`), so the omitted cities
are not "exactly those never reachable from the visited set". -/
theorem C2_counterexample :
    let s : TSPSolver := ⟨[0, 1, 2], [((0, 1), 1), ((0, 2), 2)]⟩
    (s.nearest_neighbor none).1 = [0, 1] ∧
    ¬ (∀ u ∈ s.cities, u ∉ (s.nearest_neighbor none).1 →
        ∀ v ∈ (s.nearest_neighbor none).1, s.get_distance v u = ⊤) := by
  refine ⟨by decide, fun h => ?_⟩
  have := h 2 (by decide) (by decide) 0 (by decide)
  revert this
  decide

end TSPSim

namespace TSPSim

/-- **C2 (amended).** On a non-empty, duplicate-free city list,
`nearest_neighbor` returns a tour of length equal to the city count, unless at
some step every remaining unvisited city is at infinite distance from the
current city; then it stops early with a strictly shorter partial tour, and
every omitted city is at infinite distance from the *last visited* city of the
returned tour (not necessarily from every visited city). -/
theorem C2_nearest_neighbor_length_or_partial (s : TSPSolver)
    (hne : s.cities ≠ []) (hnd : s.cities.Nodup) :
    (s.nearest_neighbor none).1.length = s.cities.length ∨
    ((s.nearest_neighbor none).1.length < s.cities.length ∧
      ∀ u ∈ s.cities, u ∉ (s.nearest_neighbor none).1 →
        s.get_distance ((s.nearest_neighbor none).1.getLastD 0) u = ⊤) := by
  obtain ⟨c₀, rest, hc⟩ : ∃ c r, s.cities = c :: r := by
    cases h : s.cities with
    | nil => exact absurd h hne
    | cons c r => exact ⟨c, r, rfl⟩
  rw [TSPSolver.nearest_neighbor_none_eq s c₀ rest hc hnd]
  have hnd' : (c₀ :: rest).Nodup := hc ▸ hnd
  have hrest_nd : rest.Nodup := (List.nodup_cons.1 hnd').2
  have hc₀_rest : c₀ ∉ rest := (List.nodup_cons.1 hnd').1
  rcases TSPSolver.nnLoop_spec s rest.length c₀ rest le_rfl hrest_nd with hfull | ⟨hlt, hunr⟩
  · left
    simp only [List.length_cons, hfull, hc, List.length_cons]
  · right
    constructor
    · simp only [List.length_cons, hc]
      omega
    · intro u hu hnot
      have hu_ne : u ≠ c₀ := fun h => hnot (h ▸ List.mem_cons_self _ _)
      have hu_rest : u ∈ rest := by
        rw [hc] at hu
        rcases List.mem_cons.1 hu with h | h
        · exact absurd h hu_ne
        · exact h
      have hu_not_loop : u ∉ TSPSolver.nnLoop s rest.length c₀ rest :=
        fun h => hnot (List.mem_cons_of_mem _ h)
      exact hunr u hu_rest hu_not_loop

/-- Witness for `C2_nearest_neighbor_length_or_partial` at a concrete
instance. -/
theorem C2_witness :
    let s : TSPSolver := ⟨[0, 1, 2], [((0, 1), 1), ((0, 2), 2)]⟩
    s.cities ≠ [] ∧ s.cities.Nodup ∧
      ((s.nearest_neighbor none).1.length = s.cities.length ∨
        ((s.nearest_neighbor none).1.length < s.cities.length ∧
          ∀ u ∈ s.cities, u ∉ (s.nearest_neighbor none).1 →
            s.get_distance ((s.nearest_neighbor none).1.getLastD 0) u = ⊤)) :=
  ⟨by decide, by decide,
    C2_nearest_neighbor_length_or_partial ⟨[0, 1, 2], [((0, 1), 1), ((0, 2), 2)]⟩
      (by decide) (by decide)⟩

end TSPSim

namespace TSPSim

/-! ## Rotation and reversal invariance of `calculate_path_cost` (C8) -/

theorem chainCost_cons_ne_nil (d : ℕ → ℕ → Cost) (a : ℕ) (t : List ℕ) (ht : t ≠ []) :
    chainCost d (a :: t) = d a (t.headD 0) + chainCost d t := by
  cases t with
  | nil => exact absurd rfl ht
  | cons b t' => rfl

theorem getLastD_ne_nil (l : List ℕ) (hl : l ≠ []) (x y : ℕ) : l.getLastD x = l.getLastD y := by
  rcases List.getLast?_isSome.2 hl |> Option.isSome_iff_exists.1 with ⟨a, ha⟩
  simp [List.getLastD_eq_getLast?, ha]

theorem getLastD_append_singleton (l : List ℕ) (x d : ℕ) : (l ++ [x]).getLastD d = x := by
  simp [List.getLastD_eq_getLast?, List.getLast?_append]

theorem getD_zero_eq_headD (l : List ℕ) : l.getD 0 0 = l.headD 0 := by
  cases l <;> rfl

/-- One-step rotation invariance of the cyclic tour cost (no symmetry of the
edge table needed: rotation permutes the same closed cycle of edges). -/
theorem calculate_path_cost_rotate_one (s : TSPSolver) (p : List ℕ) :
    s.calculate_path_cost (p.rotate 1) = s.calculate_path_cost p := by
  cases p with
  | nil => simp [List.rotate_nil]
  | cons a t =>
    rw [List.rotate_cons_succ, List.rotate_zero]
    cases ht : t with
    | nil => simp
    | cons b t' =>
      rw [← ht]
      have htne : t ≠ [] := by rw [ht]; simp
      have h1 : (t ++ [a] : List ℕ) ≠ [] := by simp
      have h2 : (a :: t : List ℕ) ≠ [] := by simp
      rw [calculate_path_cost_eq_chainCost s _ h1, calculate_path_cost_eq_chainCost s _ h2]
      rw [chainCost_append_singleton s.get_distance t a htne]
      rw [chainCost_cons_ne_nil s.get_distance a t htne]
      rw [getLastD_append_singleton, getD_zero_eq_headD, getD_zero_eq_headD]
      have hhead : ((t ++ [a]).headD 0) = t.headD 0 := by
        cases t with
        | nil => exact absurd rfl htne
        | cons u v => rfl
      have hlast : (a :: t).getLastD 0 = t.getLastD 0 := by
        rw [List.getLastD_cons]
        exact getLastD_ne_nil t htne a 0
      rw [hhead, hlast]
      have hh : (a :: t).headD 0 = a := rfl
      rw [hh]
      abel

/-- Rotation invariance for an arbitrary rotation amount. -/
theorem calculate_path_cost_rotate (s : TSPSolver) (p : List ℕ) (k : ℕ) :
    s.calculate_path_cost (p.rotate k) = s.calculate_path_cost p := by
  induction k with
  | zero => rw [List.rotate_zero]
  | succ k ih =>
    have : p.rotate (k + 1) = (p.rotate k).rotate 1 := by
      rw [List.rotate_rotate]
    rw [this, calculate_path_cost_rotate_one, ih]

theorem chainCost_reverse (s : TSPSolver)
    (hsymm : ∀ a b, s.get_distance a b = s.get_distance b a) :
    ∀ p : List ℕ, chainCost s.get_distance p.reverse = chainCost s.get_distance p
  | [] => by simp
  | [a] => by simp
  | a :: b :: t => by
    have ih := chainCost_reverse s hsymm (b :: t)
    have hne : ((b :: t).reverse : List ℕ) ≠ [] := by simp
    rw [List.reverse_cons, chainCost_append_singleton s.get_distance _ a hne, ih]
    rw [chainCost_cons_cons]
    have hlast : ((b :: t).reverse).getLastD 0 = b := by
      simp [List.getLastD_eq_getLast?, List.getLast?_reverse]
    rw [hlast, hsymm b a]
    abel

/-- Reversal invariance of the cyclic tour cost over a symmetric edge table. -/
theorem calculate_path_cost_reverse (s : TSPSolver)
    (hsymm : ∀ a b, s.get_distance a b = s.get_distance b a) (p : List ℕ) :
    s.calculate_path_cost p.reverse = s.calculate_path_cost p := by
  cases hp : p with
  | nil => simp
  | cons a t =>
    rw [← hp]
    have hne : p ≠ [] := by rw [hp]; simp
    have hne' : p.reverse ≠ [] := by simp [hne]
    rw [calculate_path_cost_eq_chainCost s _ hne', calculate_path_cost_eq_chainCost s _ hne]
    rw [chainCost_reverse s hsymm p]
    rw [getD_zero_eq_headD, getD_zero_eq_headD]
    have h1 : p.reverse.getLastD 0 = p.headD 0 := by
      simp [List.getLastD_eq_getLast?, List.getLast?_reverse, List.headD_eq_head?_getD]
    have h2 : p.reverse.headD 0 = p.getLastD 0 := by
      simp [List.getLastD_eq_getLast?, List.head?_reverse, List.headD_eq_head?_getD]
    rw [h1, h2, hsymm (p.headD 0) (p.getLastD 0)]

/-- **C8 (confirmed).** Over a symmetric edge table, the tour cost computed by
`calculate_path_cost` is invariant under every cyclic rotation of the tour and
under reversal of the tour. -/
theorem C8_cost_rotation_reversal_invariant (s : TSPSolver)
    (hsymm : ∀ a b, s.get_distance a b = s.get_distance b a) (p : List ℕ) (k : ℕ) :
    s.calculate_path_cost (p.rotate k) = s.calculate_path_cost p ∧
    s.calculate_path_cost p.reverse = s.calculate_path_cost p :=
  ⟨calculate_path_cost_rotate s p k, calculate_path_cost_reverse s hsymm p⟩

/-- Witness for `C8_cost_rotation_reversal_invariant`: the empty edge table is
symmetric (`get_distance` is constantly `∞`), applied to the tour `[0,1,2]`
rotated by 1. -/
theorem C8_witness :
    let s : TSPSolver := ⟨[0, 1, 2], []⟩
    (s.calculate_path_cost ([0, 1, 2].rotate 1) = s.calculate_path_cost [0, 1, 2] ∧
      s.calculate_path_cost ([0, 1, 2].reverse) = s.calculate_path_cost [0, 1, 2]) :=
  C8_cost_rotation_reversal_invariant ⟨[0, 1, 2], []⟩ (fun _ _ => rfl) [0, 1, 2] 1

end TSPSim

namespace TSPSim

/-! ## `two_opt` -/

namespace TSPSolver

/-- `new_tour[i:j] = reversed(new_tour[i:j])`: reverse the slice of positions
`i, …, j-1`. -/
def reverseSegment (t : List ℕ) (i j : ℕ) : List ℕ :=
  t.take i ++ ((t.drop i).take (j - i)).reverse ++ t.drop j

/-- The `(i, j)` scan order of the 2-opt double loop:
`i in range(1, L - 2)`, `j in range(i + 1, L)`. -/
def twoOptPairs (L : ℕ) : List (ℕ × ℕ) :=
  (List.range' 1 (L - 3)).flatMap fun i =>
    (List.range' (i + 1) (L - i - 1)).map fun j => (i, j)

/-- One full scan of the 2-opt double loop: the first pair `(i, j)` (skipping
`j - i == 1`) whose segment reversal strictly improves the cost, if any. -/
def firstImprove (s : TSPSolver) (best : List ℕ) : Option (List ℕ) :=
  (twoOptPairs best.length).findSome? fun p =>
    if p.2 - p.1 = 1 then none
    else
      let new_tour := reverseSegment best p.1 p.2
      if s.calculate_path_cost new_tour < s.calculate_path_cost best then some new_tour
      else none

/-- The `while improved:` loop of `two_opt`: restart the scan from the top
after every accepted improvement. -/
def twoOptLoop (s : TSPSolver) : ℕ → List ℕ → List ℕ
  | 0, best => best
  | fuel + 1, best =>
    match s.firstImprove best with
    | none => best
    | some t' => twoOptLoop s fuel t'

/-- Tours with strictly smaller cost among the permutations of `t`.  Each
accepted 2-opt move strictly decreases the cost while staying inside the
(finite) permutation class, so this is a termination measure for the
`while improved:` loop. -/
def countBetter (s : TSPSolver) (t : List ℕ) : ℕ :=
  (t.permutations.filter fun p =>
    decide (s.calculate_path_cost p < s.calculate_path_cost t)).length

/-- `two_opt`.  The Python loop terminates because every accepted move strictly
decreases the cost within the finite set of permutations of the seed tour;
`countBetter` bounds the number of iterations, so `permutations.length + 1`
units of fuel always reach the fixed point. -/
def two_opt (s : TSPSolver) (tour : List ℕ) : List ℕ × Cost :=
  let best_tour := twoOptLoop s (tour.permutations.length + 1) tour
  (best_tour, s.calculate_path_cost best_tour)

theorem reverseSegment_perm (t : List ℕ) (i j : ℕ) (hij : i ≤ j) :
    List.Perm (reverseSegment t i j) t := by
  have hd : t.drop i = (t.drop i).take (j - i) ++ t.drop j := by
    conv_lhs => rw [← List.take_append_drop (j - i) (t.drop i)]
    rw [List.drop_drop, Nat.add_sub_cancel' hij]
  have h1 : List.Perm (reverseSegment t i j)
      (t.take i ++ ((t.drop i).take (j - i) ++ t.drop j)) := by
    unfold reverseSegment
    rw [List.append_assoc]
    exact ((List.reverse_perm _).append_right _).append_left _
  rw [← hd, List.take_append_drop] at h1
  exact h1

theorem mem_twoOptPairs_le {L i j : ℕ} (h : (i, j) ∈ twoOptPairs L) : i ≤ j := by
  unfold twoOptPairs at h
  rcases List.mem_flatMap.1 h with ⟨i', hi', hj⟩
  rcases List.mem_map.1 hj with ⟨j', hj', heq⟩
  injection heq with h1 h2
  subst h1; subst h2
  have := List.mem_range'.1 hj'
  omega

/-- An accepted scan result is a strictly cheaper permutation of the input. -/
theorem firstImprove_eq_some (s : TSPSolver) (t t' : List ℕ)
    (h : s.firstImprove t = some t') :
    s.calculate_path_cost t' < s.calculate_path_cost t ∧ List.Perm t' t := by
  rcases List.exists_of_findSome?_eq_some h with ⟨⟨i, j⟩, hmem, hf⟩
  simp only at hf
  by_cases h1 : j - i = 1
  · rw [if_pos h1] at hf; cases hf
  · rw [if_neg h1] at hf
    by_cases h2 : s.calculate_path_cost (reverseSegment t i j) < s.calculate_path_cost t
    · rw [if_pos h2] at hf
      injection hf with hf
      subst hf
      exact ⟨h2, reverseSegment_perm t i j (mem_twoOptPairs_le hmem)⟩
    · rw [if_neg h2] at hf; cases hf

theorem twoOptLoop_cost_le (s : TSPSolver) :
    ∀ (fuel : ℕ) (t : List ℕ),
      s.calculate_path_cost (twoOptLoop s fuel t) ≤ s.calculate_path_cost t
  | 0, t => le_refl _
  | fuel + 1, t => by
    unfold twoOptLoop
    rcases h : s.firstImprove t with _ | t'
    · exact le_refl _
    · exact le_trans (twoOptLoop_cost_le s fuel t')
        (le_of_lt (firstImprove_eq_some s t t' h).1)

theorem filter_length_mono {α : Type} (p q : α → Bool) (himp : ∀ a, p a = true → q a = true) :
    ∀ l : List α, (l.filter p).length ≤ (l.filter q).length
  | [] => le_refl _
  | x :: l => by
    by_cases hp : p x
    · rw [List.filter_cons_of_pos hp, List.filter_cons_of_pos (himp x hp)]
      simpa using filter_length_mono p q himp l
    · rw [List.filter_cons_of_neg (by simpa using hp)]
      by_cases hq : q x
      · rw [List.filter_cons_of_pos hq]
        exact le_trans (filter_length_mono p q himp l) (by simp)
      · rw [List.filter_cons_of_neg (by simpa using hq)]
        exact filter_length_mono p q himp l

theorem filter_length_lt {α : Type} (p q : α → Bool) (himp : ∀ a, p a = true → q a = true)
    (a : α) (hq : q a = true) (hp : p a = false) :
    ∀ l : List α, a ∈ l → (l.filter p).length < (l.filter q).length
  | [], h => absurd h (List.not_mem_nil a)
  | x :: l, h => by
    rcases List.mem_cons.1 h with rfl | hmem
    · rw [List.filter_cons_of_neg (by simp [hp]), List.filter_cons_of_pos hq]
      simpa [Nat.lt_succ_iff] using filter_length_mono p q himp l
    · by_cases hpx : p x
      · rw [List.filter_cons_of_pos hpx, List.filter_cons_of_pos (himp x hpx)]
        simpa using filter_length_lt p q himp a hq hp l hmem
      · rw [List.filter_cons_of_neg (by simpa using hpx)]
        by_cases hqx : q x
        · rw [List.filter_cons_of_pos hqx]
          exact lt_of_lt_of_le (filter_length_lt p q himp a hq hp l hmem) (by simp)
        · rw [List.filter_cons_of_neg (by simpa using hqx)]
          exact filter_length_lt p q himp a hq hp l hmem

/-- Each accepted improvement strictly shrinks the set of strictly better
permutations. -/
theorem countBetter_lt (s : TSPSolver) (t t' : List ℕ)
    (h : s.firstImprove t = some t') : countBetter s t' < countBetter s t := by
  obtain ⟨hlt, hperm⟩ := firstImprove_eq_some s t t' h
  have hpp : List.Perm t'.permutations t.permutations := hperm.permutations
  have hswap : countBetter s t'
      = (t.permutations.filter fun p =>
          decide (s.calculate_path_cost p < s.calculate_path_cost t')).length := by
    unfold countBetter
    exact (hpp.filter _).length_eq
  rw [hswap]
  unfold countBetter
  refine filter_length_lt _ _ (fun a ha => ?_) t' (by simpa using hlt)
    (by simp) t.permutations (List.mem_permutations.2 hperm)
  simp only [decide_eq_true_eq] at ha ⊢
  exact lt_trans ha hlt

/-- With more fuel than the measure, the loop reaches a 2-opt local optimum:
no scan of the result finds an improving reversal. -/
theorem twoOptLoop_fix (s : TSPSolver) :
    ∀ (fuel : ℕ) (t : List ℕ), countBetter s t < fuel →
      s.firstImprove (twoOptLoop s fuel t) = none
  | 0, t => by omega
  | fuel + 1, t => by
    intro hfuel
    unfold twoOptLoop
    rcases h : s.firstImprove t with _ | t'
    · exact h
    · have := countBetter_lt s t t' h
      exact twoOptLoop_fix s fuel t' (by omega)

theorem countBetter_le (s : TSPSolver) (t : List ℕ) :
    countBetter s t ≤ t.permutations.length :=
  List.length_filter_le _ _

end TSPSolver

/-- **C4 (confirmed).** For every seed tour, `two_opt` returns a cost that is
at most the cost of the input tour, and applying `two_opt` a second time to
its own output tour yields exactly the same cost as the first application. -/
theorem C4_two_opt_improves_and_idempotent (s : TSPSolver) (t : List ℕ) :
    (s.two_opt t).2 ≤ s.calculate_path_cost t ∧
    (s.two_opt (s.two_opt t).1).2 = (s.two_opt t).2 := by
  constructor
  · exact TSPSolver.twoOptLoop_cost_le s _ t
  · have hfix : s.firstImprove (s.two_opt t).1 = none := by
      apply TSPSolver.twoOptLoop_fix
      have := TSPSolver.countBetter_le s t
      omega
    have hloop : TSPSolver.twoOptLoop s ((s.two_opt t).1.permutations.length + 1)
        (s.two_opt t).1 = (s.two_opt t).1 := by
      unfold TSPSolver.twoOptLoop
      rw [hfix]
    show s.calculate_path_cost
        (TSPSolver.twoOptLoop s ((s.two_opt t).1.permutations.length + 1) (s.two_opt t).1)
      = s.calculate_path_cost (TSPSolver.twoOptLoop s (t.permutations.length + 1) t)
    rw [hloop]
    rfl

end TSPSim

namespace TSPSim

/-! ## `dynamic_programming` (Held–Karp) -/

/-- Read entry `tbl[m][l]` of a dense 2-D table, with default `d` (the tables
are created fully populated, so the default is only a totality device). -/
def tblGet {α : Type} (d : α) (tbl : List (List α)) (m l : ℕ) : α :=
  (tbl.getD m []).getD l d

/-- Write entry `tbl[m][l] := v` of a dense 2-D table. -/
def tblSet {α : Type} (tbl : List (List α)) (m l : ℕ) (v : α) : List (List α) :=
  tbl.set m ((tbl.getD m []).set l v)

/-- Characterisation of reads after a write. -/
theorem tblGet_tblSet {α : Type} (d : α) (tbl : List (List α)) (m l : ℕ) (v : α) (m' l' : ℕ) :
    tblGet d (tblSet tbl m l v) m' l'
      = if m' = m ∧ l' = l ∧ m < tbl.length ∧ l < (tbl.getD m []).length then v
        else tblGet d tbl m' l' := by
  unfold tblGet tblSet
  simp only [List.getD_eq_getElem?_getD]
  by_cases hm' : m' = m
  · subst hm'
    by_cases hm : m' < tbl.length
    · rw [List.getElem?_set_self hm, Option.getD_some]
      by_cases hl' : l' = l
      · subst hl'
        by_cases hl : l' < (tbl[m']?.getD []).length
        · rw [List.getElem?_set_self hl, Option.getD_some, if_pos ⟨rfl, rfl, hm, hl⟩]
        · rw [List.set_eq_of_length_le (by omega), if_neg (by tauto)]
      · rw [List.getElem?_set_ne (fun h => hl' h.symm), if_neg (by tauto)]
    · rw [List.set_eq_of_length_le (by omega), if_neg (by tauto)]
  · rw [List.getElem?_set_ne (fun h => hm' h.symm), if_neg (by tauto)]

theorem tblGet_tblSet_ne {α : Type} (d : α) (tbl : List (List α)) (m l : ℕ) (v : α)
    (m' l' : ℕ) (h : ¬ (m' = m ∧ l' = l)) :
    tblGet d (tblSet tbl m l v) m' l' = tblGet d tbl m' l' := by
  rw [tblGet_tblSet]
  exact if_neg (by tauto)

namespace TSPSolver

/-- Edge weight between cities at positions `i` and `j` of the city list:
`self.get_distance(self.cities[i], self.cities[j])`. -/
def cityDist (s : TSPSolver) (i j : ℕ) : Cost :=
  s.get_distance (s.cities.getD i 0) (s.cities.getD j 0)

/-- The DP/parent table pair. -/
abbrev DPState := List (List Cost) × List (List (Option ℕ))

/-- Body of the `for next_city in range(n)` loop of `dynamic_programming`:
skip members of `mask`, otherwise relax `dp[mask | (1 << next_city)][next_city]`
through `dp[mask][last] + dist`, recording the predecessor on improvement. -/
def dpRelax (s : TSPSolver) (mask last : ℕ) (st : DPState) (next_city : ℕ) : DPState :=
  if mask.testBit next_city then st
  else
    let next_mask := mask ||| (1 <<< next_city)
    let dist := s.cityDist last next_city
    let new_cost := tblGet ⊤ st.1 mask last + dist
    if new_cost < tblGet ⊤ st.1 next_mask next_city then
      (tblSet st.1 next_mask next_city new_cost, tblSet st.2 next_mask next_city (some last))
    else st

/-- Body of the `for last in range(n)` loop: skip `last ∉ mask` and
`dp[mask][last] == inf`, otherwise run the inner relaxation loop. -/
def dpLastStep (s : TSPSolver) (mask : ℕ) (st : DPState) (last : ℕ) : DPState :=
  if ¬ mask.testBit last then st
  else if tblGet ⊤ st.1 mask last = ⊤ then st
  else (List.range s.cities.length).foldl (dpRelax s mask last) st

/-- `dp = [[inf] * n for _ in range(1 << n)]`, `dp[1][0] = 0`, and the
all-`None` parent table. -/
def dpInit (s : TSPSolver) : DPState :=
  (tblSet (List.replicate (2 ^ s.cities.length) (List.replicate s.cities.length (⊤ : Cost)))
      1 0 (0 : Cost),
   List.replicate (2 ^ s.cities.length) (List.replicate s.cities.length (none : Option ℕ)))

/-- The `for mask in range(1, 1 << n)` loop. -/
def dpTables (s : TSPSolver) : DPState :=
  (List.range' 1 (2 ^ s.cities.length - 1)).foldl
    (fun st mask => (List.range s.cities.length).foldl (dpLastStep s mask) st)
    (dpInit s)

/-- The best-final-state scan: `best_cost = inf`, `best_last = -1`, improve on
strict decrease of `dp[full_mask][last] + dist(last, 0)`. -/
def dpBest (s : TSPSolver) (dp : List (List Cost)) : Cost × ℤ :=
  (List.range s.cities.length).foldl
    (fun acc last =>
      let cost := tblGet ⊤ dp ((1 <<< s.cities.length) - 1) last + s.cityDist last 0
      if cost < acc.1 then (cost, (last : ℤ)) else acc)
    ((⊤ : Cost), (-1 : ℤ))

/-- The `while current != 0` predecessor walk of the path reconstruction.  The
walk removes one bit of `mask` per step, so `n` units of fuel always suffice;
a `None` parent with `current ≠ 0` would be an index error in Python and is
unreachable in actual runs. -/
def dpRecon (s : TSPSolver) (parent : List (List (Option ℕ))) :
    ℕ → ℕ → ℕ → List ℕ
  | 0, _, _ => []
  | fuel + 1, mask, current =>
    if current = 0 then []
    else
      s.cities.getD current 0 ::
        match tblGet none parent mask current with
        | some prev => dpRecon s parent fuel (mask ^^^ (1 <<< current)) prev
        | none => []

/-- `dynamic_programming`: guard on fewer than 2 cities, delegate to
`nearest_neighbor` above 20 cities, otherwise run the Held–Karp table,
pick the best final state and reconstruct the path. -/
def dynamic_programming (s : TSPSolver) : List ℕ × Cost :=
  if s.cities.length < 2 then ([], 0)
  else if 20 < s.cities.length then s.nearest_neighbor none
  else
    let st := dpTables s
    let best := dpBest s st.1
    let path :=
      if best.2 ≠ -1 then
        ((dpRecon s st.2 s.cities.length ((1 <<< s.cities.length) - 1) best.2.toNat)
          ++ [s.cities.getD 0 0]).reverse
      else []
    (path, best.1)

end TSPSolver

/-- **C9 (confirmed).** Above the 20-city ceiling, `dynamic_programming`
returns exactly the result of `nearest_neighbor` on the same instance. -/
theorem C9_dp_delegates_above_ceiling (s : TSPSolver) (h : 20 < s.cities.length) :
    s.dynamic_programming = s.nearest_neighbor none := by
  unfold TSPSolver.dynamic_programming
  rw [if_neg (by omega), if_pos h]

/-- Witness for `C9_dp_delegates_above_ceiling`: 21 cities. -/
theorem C9_witness :
    let s : TSPSolver := ⟨List.range 21, []⟩
    s.cities.length > 20 ∧ s.dynamic_programming = s.nearest_neighbor none :=
  ⟨by decide, C9_dp_delegates_above_ceiling ⟨List.range 21, []⟩ (by decide)⟩

end TSPSim

namespace TSPSim

/-! ## Held–Karp lower-bound machinery

The parent table never influences the cost table, so the cost-table component
of the fold is mirrored by parent-free replicas (`dpRelaxC`, …), related to the
real fold by projection. -/

namespace TSPSolver

/-- Cost-table component of `dpRelax`. -/
def dpRelaxC (s : TSPSolver) (mask last : ℕ) (dp : List (List Cost)) (next_city : ℕ) :
    List (List Cost) :=
  if mask.testBit next_city then dp
  else
    let next_mask := mask ||| (1 <<< next_city)
    let new_cost := tblGet ⊤ dp mask last + s.cityDist last next_city
    if new_cost < tblGet ⊤ dp next_mask next_city then tblSet dp next_mask next_city new_cost
    else dp

/-- Cost-table component of `dpLastStep`. -/
def dpLastStepC (s : TSPSolver) (mask : ℕ) (dp : List (List Cost)) (last : ℕ) :
    List (List Cost) :=
  if ¬ mask.testBit last then dp
  else if tblGet ⊤ dp mask last = ⊤ then dp
  else (List.range s.cities.length).foldl (dpRelaxC s mask last) dp

/-- Cost-table component of one mask iteration. -/
def dpMaskStepC (s : TSPSolver) (dp : List (List Cost)) (mask : ℕ) : List (List Cost) :=
  (List.range s.cities.length).foldl (dpLastStepC s mask) dp

/-- Cost-table component of the whole table computation. -/
def dpTableC (s : TSPSolver) : List (List Cost) :=
  (List.range' 1 (2 ^ s.cities.length - 1)).foldl (dpMaskStepC s) (dpInit s).1

theorem foldl_fst {α β γ : Type} (f2 : α × β → γ → α × β) (f1 : α → γ → α)
    (hf : ∀ st x, (f2 st x).1 = f1 st.1 x) :
    ∀ (L : List γ) (st : α × β), (L.foldl f2 st).1 = L.foldl f1 st.1
  | [], _ => rfl
  | x :: L, st => by
    rw [List.foldl_cons, List.foldl_cons, foldl_fst f2 f1 hf L, hf]

theorem dpRelax_fst (s : TSPSolver) (mask last : ℕ) (st : DPState) (j : ℕ) :
    (dpRelax s mask last st j).1 = dpRelaxC s mask last st.1 j := by
  simp only [dpRelax, dpRelaxC]
  split_ifs <;> rfl

theorem dpLastStep_fst (s : TSPSolver) (mask : ℕ) (st : DPState) (last : ℕ) :
    (dpLastStep s mask st last).1 = dpLastStepC s mask st.1 last := by
  unfold dpLastStep dpLastStepC
  split_ifs <;> first
    | rfl
    | exact foldl_fst _ _ (dpRelax_fst s mask last) _ st

theorem dpTables_fst (s : TSPSolver) : (dpTables s).1 = dpTableC s := by
  unfold dpTables dpTableC
  exact foldl_fst _ _ (fun st mask => foldl_fst _ _ (dpLastStep_fst s mask) _ st) _ _

end TSPSolver

end TSPSim

namespace TSPSim

namespace TSPSolver

/-- Shape of the DP table: `2^n` rows of `n` entries. -/
def DPDims (s : TSPSolver) (dp : List (List Cost)) : Prop :=
  dp.length = 2 ^ s.cities.length ∧ ∀ row ∈ dp, row.length = s.cities.length

theorem DPDims.row_length {s : TSPSolver} {dp : List (List Cost)} (h : DPDims s dp)
    {m : ℕ} (hm : m < 2 ^ s.cities.length) :
    (dp.getD m []).length = s.cities.length := by
  have hm' : m < dp.length := by rw [h.1]; exact hm
  rw [List.getD_eq_getElem?_getD, List.getElem?_eq_getElem hm', Option.getD_some]
  exact h.2 _ (List.getElem_mem hm')

theorem DPDims.tblSet {s : TSPSolver} {dp : List (List Cost)} (h : DPDims s dp)
    (m l : ℕ) (v : Cost) : DPDims s (tblSet dp m l v) := by
  by_cases hm : m < dp.length
  · refine ⟨by rw [TSPSim.tblSet, List.length_set]; exact h.1, fun row hrow => ?_⟩
    rcases List.mem_or_eq_of_mem_set hrow with hrow' | rfl
    · exact h.2 _ hrow'
    · rw [List.length_set]
      have hm2 : m < 2 ^ s.cities.length := by rw [← h.1]; exact hm
      exact h.row_length hm2
  · rw [TSPSim.tblSet, List.set_eq_of_length_le (by omega)]
    exact h

theorem dpRelaxC_dims (s : TSPSolver) (mask last : ℕ) (dp : List (List Cost)) (j : ℕ)
    (h : DPDims s dp) : DPDims s (dpRelaxC s mask last dp j) := by
  simp only [dpRelaxC]
  split_ifs
  · exact h
  · exact h.tblSet _ _ _
  · exact h

theorem foldl_dims {γ : Type} (s : TSPSolver) (f : List (List Cost) → γ → List (List Cost))
    (hf : ∀ dp x, DPDims s dp → DPDims s (f dp x)) :
    ∀ (L : List γ) (dp : List (List Cost)), DPDims s dp → DPDims s (L.foldl f dp)
  | [], _, h => h
  | x :: L, dp, h => by
    rw [List.foldl_cons]
    exact foldl_dims s f hf L (f dp x) (hf dp x h)

theorem dpLastStepC_dims (s : TSPSolver) (mask : ℕ) (dp : List (List Cost)) (last : ℕ)
    (h : DPDims s dp) : DPDims s (dpLastStepC s mask dp last) := by
  unfold dpLastStepC
  split_ifs <;> first
    | exact h
    | exact foldl_dims s _ (dpRelaxC_dims s mask last) _ dp h

theorem dpMaskStepC_dims (s : TSPSolver) (dp : List (List Cost)) (mask : ℕ)
    (h : DPDims s dp) : DPDims s (dpMaskStepC s dp mask) :=
  foldl_dims s _ (dpLastStepC_dims s mask) _ dp h

theorem dpInit_dims (s : TSPSolver) : DPDims s (dpInit s).1 := by
  have hbase : DPDims s
      (List.replicate (2 ^ s.cities.length) (List.replicate s.cities.length (⊤ : Cost))) := by
    refine ⟨List.length_replicate _ _, fun row hrow => ?_⟩
    rw [List.eq_of_mem_replicate hrow]
    exact List.length_replicate _ _
  exact hbase.tblSet 1 0 0

theorem dpTableC_dims (s : TSPSolver) : DPDims s (dpTableC s) :=
  foldl_dims s _ (fun dp mask => dpMaskStepC_dims s dp mask) _ _ (dpInit_dims s)

/-- Pointwise order on cost tables; the relaxation loops only ever decrease
table entries. -/
def dpLE (a b : List (List Cost)) : Prop := ∀ m l, tblGet ⊤ a m l ≤ tblGet ⊤ b m l

theorem dpLE_refl (a : List (List Cost)) : dpLE a a := fun _ _ => le_refl _

theorem dpLE_trans {a b c : List (List Cost)} (h1 : dpLE a b) (h2 : dpLE b c) : dpLE a c :=
  fun m l => le_trans (h1 m l) (h2 m l)

theorem dpRelaxC_le (s : TSPSolver) (mask last : ℕ) (dp : List (List Cost)) (j : ℕ) :
    dpLE (dpRelaxC s mask last dp j) dp := by
  simp only [dpRelaxC]
  split_ifs with h1 h2
  · exact dpLE_refl dp
  · intro m l
    rw [tblGet_tblSet]
    split_ifs with hc
    · obtain ⟨rfl, rfl, -, -⟩ := hc
      exact le_of_lt h2
    · exact le_refl _
  · exact dpLE_refl dp

theorem foldl_dpLE {γ : Type} (f : List (List Cost) → γ → List (List Cost))
    (hf : ∀ dp x, dpLE (f dp x) dp) :
    ∀ (L : List γ) (dp : List (List Cost)), dpLE (L.foldl f dp) dp
  | [], dp => dpLE_refl dp
  | x :: L, dp => by
    rw [List.foldl_cons]
    exact dpLE_trans (foldl_dpLE f hf L (f dp x)) (hf dp x)

theorem dpLastStepC_le (s : TSPSolver) (mask : ℕ) (dp : List (List Cost)) (last : ℕ) :
    dpLE (dpLastStepC s mask dp last) dp := by
  unfold dpLastStepC
  split_ifs <;> first
    | exact dpLE_refl dp
    | exact foldl_dpLE _ (dpRelaxC_le s mask last) _ dp

theorem dpMaskStepC_le (s : TSPSolver) (dp : List (List Cost)) (mask : ℕ) :
    dpLE (dpMaskStepC s dp mask) dp :=
  foldl_dpLE _ (dpLastStepC_le s mask) _ dp

theorem dpTableC_le_init (s : TSPSolver) : dpLE (dpTableC s) (dpInit s).1 :=
  foldl_dpLE _ (fun dp mask => dpMaskStepC_le s dp mask) _ _

end TSPSolver

end TSPSim

namespace TSPSim

namespace TSPSolver

/-- A number grows strictly when a fresh bit is or-ed in. -/
theorem lt_lor_one_shiftLeft (m j : ℕ) (h : m.testBit j = false) :
    m < m ||| (1 <<< j) := by
  have h2 : (1 <<< j : ℕ) = 2 ^ j := by rw [Nat.shiftLeft_eq, one_mul]
  refine Nat.lt_of_testBit j h ?_ ?_
  · rw [Nat.testBit_lor, h, h2, Nat.testBit_two_pow_self]
    rfl
  · intro k hk
    rw [Nat.testBit_lor, h2, Nat.testBit_two_pow_of_ne (Nat.ne_of_lt hk), Bool.or_false]

theorem lor_one_shiftLeft_lt_two_pow {m j n : ℕ} (hm : m < 2 ^ n) (hj : j < n) :
    m ||| (1 <<< j) < 2 ^ n := by
  have h2 : (1 <<< j : ℕ) = 2 ^ j := by rw [Nat.shiftLeft_eq, one_mul]
  rw [h2]
  exact Nat.or_lt_two_pow hm (Nat.pow_lt_pow_right (by norm_num) hj)

/-- Relaxation from `(mask, last)` writes only to masks strictly above `mask`:
entries at masks `≤ mask` are untouched. -/
theorem dpRelaxC_preserve (s : TSPSolver) (mask last : ℕ) (dp : List (List Cost)) (j : ℕ)
    (m₀ l₀ : ℕ) (hm₀ : m₀ ≤ mask) :
    tblGet ⊤ (dpRelaxC s mask last dp j) m₀ l₀ = tblGet ⊤ dp m₀ l₀ := by
  simp only [dpRelaxC]
  split_ifs with h1 h2
  · rfl
  · refine tblGet_tblSet_ne _ _ _ _ _ _ _ fun hc => ?_
    have hbit : mask.testBit j = false := by
      revert h1
      cases mask.testBit j <;> simp
    have := lt_lor_one_shiftLeft mask j hbit
    omega
  · rfl

theorem foldl_tblGet_eq {γ : Type} (f : List (List Cost) → γ → List (List Cost)) (m₀ l₀ : ℕ)
    (hf : ∀ dp x, tblGet ⊤ (f dp x) m₀ l₀ = tblGet ⊤ dp m₀ l₀) :
    ∀ (L : List γ) (dp : List (List Cost)),
      tblGet ⊤ (L.foldl f dp) m₀ l₀ = tblGet ⊤ dp m₀ l₀
  | [], _ => rfl
  | x :: L, dp => by
    rw [List.foldl_cons, foldl_tblGet_eq f m₀ l₀ hf L (f dp x), hf]

theorem dpLastStepC_preserve (s : TSPSolver) (mask : ℕ) (dp : List (List Cost)) (last : ℕ)
    (m₀ l₀ : ℕ) (hm₀ : m₀ ≤ mask) :
    tblGet ⊤ (dpLastStepC s mask dp last) m₀ l₀ = tblGet ⊤ dp m₀ l₀ := by
  unfold dpLastStepC
  split_ifs <;> first
    | rfl
    | exact foldl_tblGet_eq _ m₀ l₀ (fun dp' x => dpRelaxC_preserve s mask last dp' x m₀ l₀ hm₀)
        _ dp

theorem dpMaskStepC_preserve (s : TSPSolver) (dp : List (List Cost)) (mask : ℕ)
    (m₀ l₀ : ℕ) (hm₀ : m₀ ≤ mask) :
    tblGet ⊤ (dpMaskStepC s dp mask) m₀ l₀ = tblGet ⊤ dp m₀ l₀ :=
  foldl_tblGet_eq _ m₀ l₀ (fun dp' x => dpLastStepC_preserve s mask dp' x m₀ l₀ hm₀) _ dp

theorem foldl_maskStep_preserve (s : TSPSolver) (m₀ l₀ : ℕ) :
    ∀ (M : List ℕ), (∀ mk ∈ M, m₀ ≤ mk) →
      ∀ dp, tblGet ⊤ (M.foldl (dpMaskStepC s) dp) m₀ l₀ = tblGet ⊤ dp m₀ l₀ := by
  intro M
  induction M with
  | nil => intro _ dp; rfl
  | cons mk M ih =>
    intro hM dp
    rw [List.foldl_cons]
    rw [ih (fun x hx => hM x (List.mem_cons_of_mem mk hx)) (dpMaskStepC s dp mk)]
    exact dpMaskStepC_preserve s dp mk m₀ l₀ (hM mk (List.mem_cons_self mk M))

end TSPSolver

/-- Splitting `range'` at an interior member. -/
theorem range'_split_mem (a len m : ℕ) (h1 : a ≤ m) (h2 : m < a + len) :
    List.range' a len = List.range' a (m - a) ++ m :: List.range' (m + 1) (a + len - m - 1) := by
  have e1 : List.range' a (m - a) ++ List.range' (a + (m - a)) (len - (m - a))
      = List.range' a len := by
    rw [List.range'_append_1]
    congr 1
    omega
  rw [← e1]
  have hm' : a + (m - a) = m := by omega
  rw [hm']
  congr 1
  have hlen2 : len - (m - a) = (a + len - m - 1) + 1 := by omega
  rw [hlen2, List.range'_succ]

end TSPSim

namespace TSPSim

namespace TSPSolver

/-- Core Held–Karp invariant of the finished cost table: extending a state
`(m, last)` by an unvisited index `j` never beats the stored value of the
extended state.  This holds because masks are processed in increasing order,
row `m` is final when mask `m` is processed, and later processing only
decreases entries. -/
theorem dpTableC_relax (s : TSPSolver) (m last j : ℕ)
    (hm1 : 1 ≤ m) (hm2 : m < 2 ^ s.cities.length)
    (hlast : m.testBit last = true) (hlastn : last < s.cities.length)
    (hj : m.testBit j = false) (hjn : j < s.cities.length) :
    tblGet ⊤ (dpTableC s) (m ||| (1 <<< j)) j
      ≤ tblGet ⊤ (dpTableC s) m last + s.cityDist last j := by
  have hpow : 0 < 2 ^ s.cities.length := Nat.two_pow_pos _
  -- split the mask loop at m
  have hsplit : List.range' 1 (2 ^ s.cities.length - 1)
      = List.range' 1 (m - 1) ++ m :: List.range' (m + 1) (1 + (2 ^ s.cities.length - 1) - m - 1) :=
    range'_split_mem 1 (2 ^ s.cities.length - 1) m hm1 (by omega)
  have hT : dpTableC s
      = (List.range' (m + 1) (1 + (2 ^ s.cities.length - 1) - m - 1)).foldl (dpMaskStepC s)
          (dpMaskStepC s ((List.range' 1 (m - 1)).foldl (dpMaskStepC s) (dpInit s).1) m) := by
    rw [dpTableC, hsplit, List.foldl_append, List.foldl_cons]
  set A := (List.range' 1 (m - 1)).foldl (dpMaskStepC s) (dpInit s).1 with hA
  set B := dpMaskStepC s A m with hB
  have hdimsA : DPDims s A := foldl_dims s _ (fun dp mask => dpMaskStepC_dims s dp mask) _ _
    (dpInit_dims s)
  -- row m of the final table is its value at the start of mask m's processing
  have hfreeze : ∀ l, tblGet ⊤ (dpTableC s) m l = tblGet ⊤ A m l := by
    intro l
    rw [hT]
    rw [foldl_maskStep_preserve s m l _ (fun x hx => by
      have := List.mem_range'.1 hx
      omega) B]
    rw [hB, dpMaskStepC_preserve s A m m l (le_refl m)]
  -- the final table is below the state after mask m's processing
  have hTleB : dpLE (dpTableC s) B := by
    rw [hT]
    exact foldl_dpLE _ (fun dp mask => dpMaskStepC_le s dp mask) _ B
  -- split the last-loop of mask m's processing at `last`
  have hrange : List.range s.cities.length
      = List.range' 0 last ++ last :: List.range' (last + 1) (s.cities.length - last - 1) := by
    rw [List.range_eq_range']
    have := range'_split_mem 0 s.cities.length last (Nat.zero_le _) (by omega)
    simpa using this
  set nm := m ||| (1 <<< j) with hnm
  have hkey : tblGet ⊤ B nm j ≤ tblGet ⊤ A m last + s.cityDist last j := by
    rw [hB, dpMaskStepC, hrange, List.foldl_append, List.foldl_cons]
    set A' := (List.range' 0 last).foldl (dpLastStepC s m) A with hA'
    have hdimsA' : DPDims s A' := foldl_dims s _ (dpLastStepC_dims s m) _ _ hdimsA
    have hA'row : ∀ l, tblGet ⊤ A' m l = tblGet ⊤ A m l := by
      intro l
      rw [hA']
      exact foldl_tblGet_eq _ m l (fun dp x => dpLastStepC_preserve s m dp x m l (le_refl m)) _ A
    set C := dpLastStepC s m A' last with hC
    have hrestC : dpLE ((List.range' (last + 1) (s.cities.length - last - 1)).foldl
        (dpLastStepC s m) C) C := foldl_dpLE _ (dpLastStepC_le s m) _ C
    refine le_trans (hrestC nm j) ?_
    -- evaluate dpLastStepC at (m, last)
    rw [hC]
    unfold dpLastStepC
    rw [if_neg (by simp [hlast])]
    by_cases htop : tblGet ⊤ A' m last = ⊤
    · rw [if_pos htop]
      have : tblGet ⊤ A m last = ⊤ := by rw [← hA'row last]; exact htop
      rw [this, top_add]
      exact le_top
    · rw [if_neg htop]
      -- split the inner relaxation loop at j
      have hrangej : List.range s.cities.length
          = List.range' 0 j ++ j :: List.range' (j + 1) (s.cities.length - j - 1) := by
        rw [List.range_eq_range']
        have := range'_split_mem 0 s.cities.length j (Nat.zero_le _) (by omega)
        simpa using this
      rw [hrangej, List.foldl_append, List.foldl_cons]
      set A'' := (List.range' 0 j).foldl (dpRelaxC s m last) A' with hA''
      have hdimsA'' : DPDims s A'' := foldl_dims s _ (dpRelaxC_dims s m last) _ _ hdimsA'
      have hA''row : tblGet ⊤ A'' m last = tblGet ⊤ A m last := by
        rw [hA'']
        rw [foldl_tblGet_eq _ m last (fun dp x => dpRelaxC_preserve s m last dp x m last
          (le_refl m)) _ A']
        exact hA'row last
      set D := dpRelaxC s m last A'' j with hD
      have hrestD : dpLE ((List.range' (j + 1) (s.cities.length - j - 1)).foldl
          (dpRelaxC s m last) D) D := foldl_dpLE _ (dpRelaxC_le s m last) _ D
      refine le_trans (hrestD nm j) ?_
      -- evaluate the relaxation at j
      rw [hD]
      simp only [dpRelaxC]
      rw [if_neg (by simp [hj])]
      simp only [← hnm]
      by_cases himp : tblGet ⊤ A'' m last + s.cityDist last j < tblGet ⊤ A'' nm j
      · rw [if_pos himp]
        have hbound1 : nm < 2 ^ s.cities.length := lor_one_shiftLeft_lt_two_pow hm2 hjn
        have hset : tblGet ⊤ (tblSet A'' nm j (tblGet ⊤ A'' m last + s.cityDist last j)) nm j
            = tblGet ⊤ A'' m last + s.cityDist last j := by
          rw [tblGet_tblSet]
          rw [if_pos]
          refine ⟨rfl, rfl, ?_, ?_⟩
          · rw [hdimsA''.1]; exact hbound1
          · rw [hdimsA''.row_length hbound1]; exact hjn
        rw [hset, hA''row]
      · rw [if_neg himp]
        push_neg at himp
        refine le_trans himp ?_
        rw [hA''row]
  refine le_trans (hTleB nm j) (le_trans hkey ?_)
  rw [hfreeze last]

end TSPSolver

end TSPSim

namespace TSPSim

namespace TSPSolver

theorem dpInit_one_zero (s : TSPSolver) (hn : 1 ≤ s.cities.length) :
    tblGet ⊤ (dpInit s).1 1 0 = 0 := by
  have hpow : 1 < 2 ^ s.cities.length := by
    calc 1 < 2 ^ 1 := by norm_num
    _ ≤ 2 ^ s.cities.length := Nat.pow_le_pow_right (by norm_num) hn
  unfold dpInit
  rw [tblGet_tblSet, if_pos]
  refine ⟨rfl, rfl, ?_, ?_⟩
  · rw [List.length_replicate]; exact hpow
  · rw [List.getD_eq_getElem?_getD, List.getElem?_replicate_of_lt hpow, Option.getD_some,
      List.length_replicate]
    exact hn

end TSPSolver

/-- Bitmask of a list of indices: the indices or-ed in one by one. -/
def maskOf (il : List ℕ) : ℕ := il.foldl (fun acc i => acc ||| (1 <<< i)) 0

theorem maskOf_foldl_testBit :
    ∀ (il : List ℕ) (acc t : ℕ),
      ((il.foldl (fun a i => a ||| (1 <<< i)) acc).testBit t = true)
        ↔ (acc.testBit t = true ∨ t ∈ il) := by
  intro il
  induction il with
  | nil => intro acc t; simp
  | cons i il ih =>
    intro acc t
    rw [List.foldl_cons, ih]
    simp only [Nat.testBit_lor, Nat.shiftLeft_eq, one_mul, Nat.testBit_two_pow,
      List.mem_cons, Bool.or_eq_true, decide_eq_true_eq]
    constructor
    · rintro ((h | h) | h)
      · exact Or.inl h
      · exact Or.inr (Or.inl h.symm)
      · exact Or.inr (Or.inr h)
    · rintro (h | h | h)
      · exact Or.inl (Or.inl h)
      · exact Or.inl (Or.inr h.symm)
      · exact Or.inr h

theorem maskOf_testBit (il : List ℕ) (t : ℕ) :
    ((maskOf il).testBit t = true) ↔ t ∈ il := by
  unfold maskOf
  rw [maskOf_foldl_testBit]
  simp [Nat.zero_testBit]

theorem maskOf_lt (il : List ℕ) (n : ℕ) (h : ∀ i ∈ il, i < n) : maskOf il < 2 ^ n := by
  have aux : ∀ (l : List ℕ) (acc : ℕ), acc < 2 ^ n → (∀ i ∈ l, i < n) →
      l.foldl (fun a i => a ||| (1 <<< i)) acc < 2 ^ n := by
    intro l
    induction l with
    | nil => intro acc hacc _; exact hacc
    | cons i l ih =>
      intro acc hacc hl
      rw [List.foldl_cons]
      exact ih _ (TSPSolver.lor_one_shiftLeft_lt_two_pow hacc (hl i (List.mem_cons_self i l)))
        (fun x hx => hl x (List.mem_cons_of_mem i hx))
  exact aux il 0 (Nat.two_pow_pos n) h

theorem maskOf_append_singleton (il : List ℕ) (j : ℕ) :
    maskOf (il ++ [j]) = maskOf il ||| (1 <<< j) := by
  unfold maskOf
  rw [List.foldl_append, List.foldl_cons, List.foldl_nil]

theorem maskOf_pos (il : List ℕ) (h : 0 ∈ il) : 1 ≤ maskOf il := by
  by_contra hc
  have h0 : maskOf il = 0 := by omega
  have := (maskOf_testBit il 0).2 h
  rw [h0, Nat.zero_testBit] at this
  cases this

theorem maskOf_full (n : ℕ) (il : List ℕ) (hlen : il.length = n) (hnd : il.Nodup)
    (hlt : ∀ i ∈ il, i < n) : maskOf il = (1 <<< n) - 1 := by
  have hmem : ∀ t, t < n → t ∈ il := by
    intro t ht
    have h1 : il.toFinset.card = n := by rw [List.toFinset_card_of_nodup hnd, hlen]
    have h2 : il.toFinset ⊆ Finset.range n := fun x hx =>
      Finset.mem_range.2 (hlt x (List.mem_toFinset.1 hx))
    have h3 : il.toFinset = Finset.range n :=
      Finset.eq_of_subset_of_card_le h2 (by rw [h1, Finset.card_range])
    exact List.mem_toFinset.1 (h3 ▸ Finset.mem_range.2 ht)
  have hshift : (1 <<< n : ℕ) = 2 ^ n := by rw [Nat.shiftLeft_eq, one_mul]
  rw [hshift]
  apply Nat.eq_of_testBit_eq
  intro t
  rw [Nat.testBit_two_pow_sub_one]
  by_cases ht : t < n
  · rw [(maskOf_testBit il t).2 (hmem t ht)]
    simp [ht]
  · have hnot : t ∉ il := fun hm => ht (hlt t hm)
    have h4 : (maskOf il).testBit t = false :=
      Bool.eq_false_iff.2 (fun hc => hnot ((maskOf_testBit il t).1 hc))
    rw [h4]
    simp [ht]

namespace TSPSolver

/-- Held–Karp lower bound: the final table entry of any duplicate-free index
walk starting at index 0 is at most the walk's cost. -/
theorem dpTableC_le_chain (s : TSPSolver) (il : List ℕ) :
    il ≠ [] → il.head? = some 0 → il.Nodup → (∀ i ∈ il, i < s.cities.length) →
      tblGet ⊤ (dpTableC s) (maskOf il) (il.getLastD 0) ≤ chainCost s.cityDist il := by
  induction il using List.reverseRecOn with
  | nil => intro h; exact absurd rfl h
  | append_singleton l j ih =>
    intro _ hhead hnd hlt
    rcases eq_or_ne l [] with rfl | hl
    · simp only [List.nil_append, List.head?_cons, Option.some.injEq] at hhead
      subst hhead
      have hn1 : 1 ≤ s.cities.length := hlt 0 (by simp)
      have h1 : maskOf [0] = 1 := rfl
      simp only [List.nil_append, h1, List.getLastD_cons, List.getLastD_nil, chainCost_single]
      exact le_trans (dpTableC_le_init s 1 0) (le_of_eq (dpInit_one_zero s hn1))
    · obtain ⟨a, l', rfl⟩ : ∃ a l', l = a :: l' := by
        cases l with
        | nil => exact absurd rfl hl
        | cons a l' => exact ⟨a, l', rfl⟩
      have hhead' : (a :: l').head? = some 0 := by
        simpa using hhead
      have hnd_split := List.nodup_append.1 hnd
      have hndl : (a :: l').Nodup := hnd_split.1
      have hjl : j ∉ (a :: l') := fun hm => hnd_split.2.2 hm (List.mem_singleton_self j)
      have hsub : ∀ i ∈ (a :: l'), i < s.cities.length := fun i hi =>
        hlt i (List.mem_append_left _ hi)
      have hlast_mem : (a :: l').getLastD 0 ∈ (a :: l') := by
        rcases Option.isSome_iff_exists.1 (List.getLast?_isSome.2 (List.cons_ne_nil a l'))
          with ⟨x, hx⟩
        rw [List.getLastD_eq_getLast?, hx, Option.getD_some]
        exact List.mem_of_getLast?_eq_some hx
      have ha0 : a = 0 := by simpa using hhead'
      have hrelax := dpTableC_relax s (maskOf (a :: l')) ((a :: l').getLastD 0) j
        (maskOf_pos _ (ha0 ▸ List.mem_cons_self a l'))
        (maskOf_lt _ _ hsub)
        ((maskOf_testBit _ _).2 hlast_mem)
        (hsub _ hlast_mem)
        (Bool.eq_false_iff.2 (fun hc => hjl ((maskOf_testBit _ _).1 hc)))
        (hlt j (List.mem_append_right _ (List.mem_singleton_self j)))
      have hih := ih (by simp) hhead' hndl hsub
      rw [maskOf_append_singleton, getLastD_append_singleton,
        chainCost_append_singleton s.cityDist (a :: l') j (by simp)]
      exact le_trans hrelax (add_le_add_right hih _)

end TSPSolver

end TSPSim

namespace TSPSim

namespace TSPSolver

/-- The best-final-state scan is bounded by every candidate it examines. -/
theorem dpBest_foldl_le (s : TSPSolver) (dp : List (List Cost)) :
    ∀ (L : List ℕ) (acc : Cost × ℤ),
      (L.foldl (fun acc last =>
        let cost := tblGet ⊤ dp ((1 <<< s.cities.length) - 1) last + s.cityDist last 0
        if cost < acc.1 then (cost, (last : ℤ)) else acc) acc).1 ≤ acc.1
      ∧ ∀ l ∈ L,
        (L.foldl (fun acc last =>
          let cost := tblGet ⊤ dp ((1 <<< s.cities.length) - 1) last + s.cityDist last 0
          if cost < acc.1 then (cost, (last : ℤ)) else acc) acc).1
          ≤ tblGet ⊤ dp ((1 <<< s.cities.length) - 1) l + s.cityDist l 0
  | [], acc => ⟨le_refl _, fun l hl => absurd hl (List.not_mem_nil l)⟩
  | x :: L, acc => by
    rw [List.foldl_cons]
    obtain ⟨ih1, ih2⟩ := dpBest_foldl_le s dp L
      (if tblGet ⊤ dp ((1 <<< s.cities.length) - 1) x + s.cityDist x 0 < acc.1
       then (tblGet ⊤ dp ((1 <<< s.cities.length) - 1) x + s.cityDist x 0, (x : ℤ)) else acc)
    constructor
    · refine le_trans ih1 ?_
      split_ifs with h
      · exact le_of_lt h
      · exact le_refl _
    · intro l hl
      rcases List.mem_cons.1 hl with rfl | hl'
      · refine le_trans ih1 ?_
        split_ifs with h
        · exact le_refl _
        · exact not_lt.1 h
      · exact ih2 l hl'

theorem dpBest_le (s : TSPSolver) (dp : List (List Cost)) (l : ℕ)
    (hl : l < s.cities.length) :
    (dpBest s dp).1 ≤ tblGet ⊤ dp ((1 <<< s.cities.length) - 1) l + s.cityDist l 0 :=
  (dpBest_foldl_le s dp (List.range s.cities.length) (⊤, -1)).2 l (List.mem_range.2 hl)

/-- Cost component of `dynamic_programming` in the Held–Karp regime. -/
theorem dynamic_programming_snd (s : TSPSolver) (h2 : 2 ≤ s.cities.length)
    (h20 : s.cities.length ≤ 20) :
    (s.dynamic_programming).2 = (dpBest s (dpTableC s)).1 := by
  unfold dynamic_programming
  rw [if_neg (by omega), if_neg (by omega)]
  show (dpBest s (dpTables s).1).1 = (dpBest s (dpTableC s)).1
  rw [dpTables_fst]

theorem indexOf_getD (l : List ℕ) (c : ℕ) (h : c ∈ l) : l.getD (l.indexOf c) 0 = c := by
  rw [List.getD_eq_getElem l 0 (List.indexOf_lt_length.2 h)]
  exact List.getElem_indexOf (List.indexOf_lt_length.2 h)

theorem getLastD_map_aux (f : ℕ → ℕ) :
    ∀ (l : List ℕ), l ≠ [] → (l.map f).getLastD 0 = f (l.getLastD 0)
  | [], h => absurd rfl h
  | [a], _ => rfl
  | a :: b :: t, _ => by
    have ih := getLastD_map_aux f (b :: t) (List.cons_ne_nil b t)
    have h1 : ((a :: b :: t).map f).getLastD 0 = ((b :: t).map f).getLastD 0 := by
      simp only [List.map_cons, List.getLastD_cons]
    have h2 : (a :: b :: t).getLastD 0 = (b :: t).getLastD 0 := by
      rw [List.getLastD_cons]
      exact getLastD_ne_nil _ (List.cons_ne_nil b t) _ _
    rw [h1, h2, ih]

theorem chainCost_map_indexOf (s : TSPSolver) :
    ∀ p : List ℕ, (∀ c ∈ p, c ∈ s.cities) →
      chainCost s.cityDist (p.map fun c => s.cities.indexOf c)
        = chainCost s.get_distance p
  | [] => fun _ => rfl
  | [a] => fun _ => rfl
  | a :: b :: t => fun hsub => by
    have ih := chainCost_map_indexOf s (b :: t)
      (fun c hc => hsub c (List.mem_cons_of_mem a hc))
    simp only [List.map_cons] at ih ⊢
    rw [chainCost_cons_cons, chainCost_cons_cons, ih]
    have ha : a ∈ s.cities := hsub a (List.mem_cons_self _ _)
    have hb : b ∈ s.cities := hsub b (List.mem_cons_of_mem a (List.mem_cons_self _ _))
    unfold cityDist
    rw [indexOf_getD _ _ ha, indexOf_getD _ _ hb]

end TSPSolver

end TSPSim

namespace TSPSim

theorem getLastD_mem (l : List ℕ) (h : l ≠ []) : l.getLastD 0 ∈ l := by
  rcases Option.isSome_iff_exists.1 (List.getLast?_isSome.2 h) with ⟨x, hx⟩
  rw [List.getLastD_eq_getLast?, hx, Option.getD_some]
  exact List.mem_of_getLast?_eq_some hx

namespace TSPSolver

/-- If every weight stored in the edge table is non-negative, so is every
distance (`∞` included). -/
theorem get_distance_nonneg (s : TSPSolver) (h : ∀ pr ∈ s.edges, 0 ≤ pr.2) :
    ∀ a b, (0 : Cost) ≤ s.get_distance a b := by
  intro a b
  unfold get_distance
  rcases hl : s.edges.lookup (a, b) with _ | w
  · exact le_top
  · obtain ⟨l₁, l₂, he, -⟩ := List.lookup_eq_some_iff.1 hl
    have hmem : ((a, b), w) ∈ s.edges := by
      rw [he]
      exact List.mem_append_right _ (List.mem_cons_self _ _)
    have hw : (0 : ℚ) ≤ w := h _ hmem
    show (0 : Cost) ≤ (w : Cost)
    exact_mod_cast hw

end TSPSolver

/-- **C1 (amended).** For a duplicate-free instance with at most 20 cities and
non-negative edge weights, whenever `nearest_neighbor` returns a *complete*
tour (one city per input city — i.e. it never hit the early-stop case), the
cost returned by `dynamic_programming` is at most the cost returned by
`nearest_neighbor`. -/
theorem C1_dp_le_nn_of_complete (s : TSPSolver) (hnd : s.cities.Nodup)
    (h20 : s.cities.length ≤ 20)
    (hnonneg : ∀ a b, (0 : Cost) ≤ s.get_distance a b)
    (hnn : (s.nearest_neighbor none).1.length = s.cities.length) :
    (s.dynamic_programming).2 ≤ (s.nearest_neighbor none).2 := by
  by_cases hsmall : s.cities.length < 2
  · unfold TSPSolver.dynamic_programming
    rw [if_pos hsmall]
    rcases hc : s.cities with _ | ⟨c₀, rest⟩
    · unfold TSPSolver.nearest_neighbor
      rw [hc]
    · have hrest : rest = [] := by
        have hlen := congrArg List.length hc
        simp only [List.length_cons] at hlen
        have : rest.length = 0 := by omega
        exact List.length_eq_zero.1 this
      subst hrest
      rw [TSPSolver.nearest_neighbor_none_eq s c₀ [] hc hnd]
      show (0 : Cost) ≤ s.calculate_path_cost (c₀ :: TSPSolver.nnLoop s
        (List.length (([] : List ℕ))) c₀ [])
      have hone : s.calculate_path_cost [c₀] = s.get_distance c₀ c₀ := by
        have hr1 : List.range 1 = [0] := rfl
        simp [TSPSolver.calculate_path_cost, hr1]
      show (0 : Cost) ≤ s.calculate_path_cost [c₀]
      rw [hone]
      exact hnonneg c₀ c₀
  · push_neg at hsmall
    obtain ⟨c₀, rest, hc⟩ : ∃ c r, s.cities = c :: r := by
      cases h' : s.cities with
      | nil => rw [h'] at hsmall; simp at hsmall
      | cons c r => exact ⟨c, r, rfl⟩
    have hNN := TSPSolver.nearest_neighbor_none_eq s c₀ rest hc hnd
    set p := c₀ :: TSPSolver.nnLoop s rest.length c₀ rest with hp
    have hpne : p ≠ [] := by rw [hp]; exact List.cons_ne_nil _ _
    have hnd' : (c₀ :: rest).Nodup := hc ▸ hnd
    have hsubp : ∀ c ∈ p, c ∈ s.cities := by
      intro c hcm
      rcases List.mem_cons.1 hcm with rfl | hm
      · rw [hc]; exact List.mem_cons_self _ _
      · rw [hc]
        exact List.mem_cons_of_mem _ (TSPSolver.nnLoop_subset s rest.length c₀ rest c hm)
    have hndp : p.Nodup := by
      refine List.nodup_cons.2 ⟨fun hmem => ?_,
        TSPSolver.nnLoop_nodup s _ _ _ (List.nodup_cons.1 hnd').2⟩
      exact (List.nodup_cons.1 hnd').1 (TSPSolver.nnLoop_subset s _ _ _ c₀ hmem)
    have hplen : p.length = s.cities.length := by
      rw [hNN] at hnn
      exact hnn
    set il := p.map (fun c => s.cities.indexOf c) with hil
    have hlen_il : il.length = s.cities.length := by rw [hil, List.length_map, hplen]
    have hlt_il : ∀ i ∈ il, i < s.cities.length := by
      intro i hi
      rcases List.mem_map.1 hi with ⟨c, hcm, rfl⟩
      exact List.indexOf_lt_length.2 (hsubp c hcm)
    have hnd_il : il.Nodup := by
      refine List.Nodup.map_on ?_ hndp
      intro x hx y hy hxy
      exact (List.indexOf_inj (hsubp x hx) (hsubp y hy)).1 hxy
    have hhead_il : il.head? = some 0 := by
      rw [hil, hp]
      simp only [List.map_cons, List.head?_cons]
      rw [hc]
      exact congrArg some (List.indexOf_cons_self c₀ rest)
    have hil_ne : il ≠ [] := by rw [hil, hp]; simp
    have hchain := TSPSolver.dpTableC_le_chain s il hil_ne hhead_il hnd_il hlt_il
    have hmask : maskOf il = (1 <<< s.cities.length) - 1 :=
      maskOf_full _ il hlen_il hnd_il hlt_il
    have hlast_il : il.getLastD 0 = s.cities.indexOf (p.getLastD 0) := by
      rw [hil]
      exact TSPSolver.getLastD_map_aux _ p hpne
    have hlast_lt : il.getLastD 0 < s.cities.length := hlt_il _ (getLastD_mem il hil_ne)
    have hdp : (s.dynamic_programming).2 = (TSPSolver.dpBest s (TSPSolver.dpTableC s)).1 :=
      TSPSolver.dynamic_programming_snd s hsmall h20
    rw [hdp, hNN]
    show (TSPSolver.dpBest s (TSPSolver.dpTableC s)).1 ≤ s.calculate_path_cost p
    have hb := TSPSolver.dpBest_le s (TSPSolver.dpTableC s) (il.getLastD 0) hlast_lt
    rw [← hmask] at hb
    refine le_trans hb ?_
    have hplast_mem : p.getLastD 0 ∈ s.cities := hsubp _ (getLastD_mem p hpne)
    have hclose : s.cityDist (il.getLastD 0) 0 = s.get_distance (p.getLastD 0) (p.getD 0 0) := by
      unfold TSPSolver.cityDist
      rw [hlast_il, TSPSolver.indexOf_getD _ _ hplast_mem]
      have h1 : s.cities.getD 0 0 = c₀ := by rw [hc]; rfl
      have h2 : p.getD 0 0 = c₀ := by rw [hp]; rfl
      rw [h1, h2]
    have hchain2 : chainCost s.cityDist il = chainCost s.get_distance p := by
      rw [hil]
      exact TSPSolver.chainCost_map_indexOf s p hsubp
    calc tblGet ⊤ (TSPSolver.dpTableC s) (maskOf il) (il.getLastD 0)
          + s.cityDist (il.getLastD 0) 0
        ≤ chainCost s.cityDist il + s.cityDist (il.getLastD 0) 0 := add_le_add_right hchain _
      _ = chainCost s.get_distance p + s.get_distance (p.getLastD 0) (p.getD 0 0) := by
          rw [hchain2, hclose]
      _ = s.calculate_path_cost p := (calculate_path_cost_eq_chainCost s p hpne).symm

/-- **C1, counterexample.** Cities `[0, 1, 2]`, finite edges only between `0`
and `1`: nearest neighbor stops early with the partial tour `[0, 1]` of finite
cost `2`, while the exact Held–Karp solver reports cost `∞` (no Hamiltonian
cycle exists).  So on this 3-city instance `dynamic_programming`'s cost is
*not* `≤` `nearest_neighbor`'s cost. -/
theorem C1_counterexample :
    let s : TSPSolver := ⟨[0, 1, 2], [((0, 1), 1), ((1, 0), 1)]⟩
    s.cities.length ≤ 20 ∧ (s.dynamic_programming).2 = ⊤ ∧
      (s.nearest_neighbor none).2 = (2 : ℚ) ∧
      ¬ ((s.dynamic_programming).2 ≤ (s.nearest_neighbor none).2) := by
  refine ⟨by decide, by decide, by decide, by decide⟩

/-- Witness for `C1_dp_le_nn_of_complete` at a concrete complete instance. -/
theorem C1_witness :
    let s : TSPSolver := ⟨[0, 1], [((0, 1), 1), ((1, 0), 1)]⟩
    s.cities.Nodup ∧ s.cities.length ≤ 20 ∧ (∀ a b, (0 : Cost) ≤ s.get_distance a b) ∧
      (s.nearest_neighbor none).1.length = s.cities.length ∧
      (s.dynamic_programming).2 ≤ (s.nearest_neighbor none).2 :=
  ⟨by decide, by decide, TSPSolver.get_distance_nonneg _ (by decide), by decide,
    C1_dp_le_nn_of_complete ⟨[0, 1], [((0, 1), 1), ((1, 0), 1)]⟩ (by decide) (by decide)
      (TSPSolver.get_distance_nonneg _ (by decide)) (by decide)⟩

end TSPSim

namespace TSPSim

/-! ## `genetic_algorithm` -/

/-- Oracle for the `random` module calls of `genetic_algorithm`, mirroring the
spec's injectable-random-source design note: `shuffle i` is the result of
`random.shuffle` for the `i`-th initial individual; `sample g c k` the indices
drawn by `random.sample` for the `k`-th parent of child `c` in generation `g`;
`oxCut` the two crossover cut points; `randFloat` the `random.random()` draw
for the mutation coin; `mutIdx` the two swap positions. -/
structure GARandom where
  shuffle : ℕ → List ℕ → List ℕ
  sample : ℕ → ℕ → ℕ → List ℕ
  oxCut : ℕ → ℕ → ℕ × ℕ
  randFloat : ℕ → ℕ → ℚ
  mutIdx : ℕ → ℕ → ℕ × ℕ

/-- `max` of a Python list of floats (the callers guarantee non-emptiness;
`max([])` would raise). -/
def pyMax : List ℚ → ℚ
  | [] => 0
  | a :: t => t.foldl max a

theorem pyMax_foldl_le : ∀ (t : List ℚ) (a : ℚ),
    a ≤ t.foldl max a ∧ ∀ x ∈ t, x ≤ t.foldl max a
  | [], a => ⟨le_refl a, fun x hx => absurd hx (List.not_mem_nil x)⟩
  | b :: t, a => by
    rw [List.foldl_cons]
    obtain ⟨ih1, ih2⟩ := pyMax_foldl_le t (max a b)
    refine ⟨le_trans (le_max_left a b) ih1, fun x hx => ?_⟩
    rcases List.mem_cons.1 hx with rfl | hx'
    · exact le_trans (le_max_right a x) ih1
    · exact ih2 x hx'

theorem le_pyMax (l : List ℚ) (x : ℚ) (hx : x ∈ l) : x ≤ pyMax l := by
  cases l with
  | nil => cases hx
  | cons a t =>
    rcases List.mem_cons.1 hx with rfl | hx'
    · exact (pyMax_foldl_le t x).1
    · exact (pyMax_foldl_le t a).2 x hx'

theorem pyMax_foldl_mem : ∀ (t : List ℚ) (a : ℚ), t.foldl max a = a ∨ t.foldl max a ∈ t
  | [], a => Or.inl rfl
  | b :: t, a => by
    rw [List.foldl_cons]
    rcases pyMax_foldl_mem t (max a b) with h | h
    · rcases max_choice a b with hab | hab
      · exact Or.inl (h.trans hab)
      · refine Or.inr ?_
        rw [h, hab]
        exact List.mem_cons_self b t
    · exact Or.inr (List.mem_cons_of_mem b h)

theorem pyMax_mem (l : List ℚ) (h : l ≠ []) : pyMax l ∈ l := by
  cases l with
  | nil => exact absurd rfl h
  | cons a t =>
    show t.foldl max a ∈ a :: t
    rcases pyMax_foldl_mem t a with h' | h'
    · rw [h']; exact List.mem_cons_self a t
    · exact List.mem_cons_of_mem a h'

namespace TSPSolver

/-- `fitness(tour) = 1 / (cost + 1)`; Python float semantics give `0.0` for an
infinite cost.  (A cost of exactly `-1` would raise `ZeroDivisionError` in
Python; the claims only involve non-negative costs.) -/
def gaFitness (s : TSPSolver) (tour : List ℕ) : ℚ :=
  if s.calculate_path_cost tour = ⊤ then 0
  else 1 / ((s.calculate_path_cost tour).untop' 0 + 1)

/-- `select_parent`: tournament selection over oracle-chosen indices into
`zip(population, fitnesses)`; Python's `max(..., key=...)` keeps the first
element attaining the maximum key. -/
def select_parent (picks : List ℕ) (population : List (List ℕ)) (fitnesses : List ℚ) :
    List ℕ :=
  let tournament := picks.map fun k => (population.getD k [], fitnesses.getD k 0)
  match tournament with
  | [] => []
  | t0 :: ts => (ts.foldl (fun best cand => if cand.2 > best.2 then cand else best) t0).1

/-- Order crossover (OX): copy `parent1[start:end]`, then fill the remaining
slots from `parent2[end:] + parent2[:end]`, skipping cities already present,
with a wrapping pointer starting at `end`.  (Unfilled `None` slots — possible
only for non-permutation parents — are read back as city `0`.) -/
def crossover (cut : ℕ × ℕ) (parent1 parent2 : List ℕ) : List ℕ :=
  let size := parent1.length
  let start := min cut.1 cut.2
  let stop := max cut.1 cut.2
  let child0 : List (Option ℕ) :=
    (List.range size).map fun i =>
      if start ≤ i ∧ i < stop then some (parent1.getD i 0) else none
  let source := parent2.drop stop ++ parent2.take stop
  let filled := source.foldl
    (fun (st : List (Option ℕ) × ℕ) city =>
      if (some city) ∈ st.1 then st
      else
        let pointer := if st.2 ≥ size then 0 else st.2
        (st.1.set pointer (some city), pointer + 1))
    (child0, stop)
  filled.1.map fun o => o.getD 0

/-- Swap mutation, applied when `random.random() < mutation_rate`. -/
def mutate (rand : ℚ) (mutation_rate : ℚ) (idx : ℕ × ℕ) (tour : List ℕ) : List ℕ :=
  if rand < mutation_rate then
    (tour.set idx.1 (tour.getD idx.2 0)).set idx.2 (tour.getD idx.1 0)
  else tour

/-- One iteration of the `for generation in range(generations)` loop.  State:
`(population, best_tour, best_fitness)`.  Returns `none` when Python would
raise (`best_tour.copy()` with `best_tour is None`, possible only when every
fitness so far is `0`, i.e. every tour cost is infinite). -/
def gaGeneration (s : TSPSolver) (r : GARandom) (population_size : ℕ) (mutation_rate : ℚ)
    (g : ℕ) (st : List (List ℕ) × Option (List ℕ) × ℚ) :
    Option (List (List ℕ) × Option (List ℕ) × ℚ) :=
  let population := st.1
  let fitnesses := population.map (gaFitness s)
  let max_fitness_idx := fitnesses.indexOf (pyMax fitnesses)
  let best :=
    if fitnesses.getD max_fitness_idx 0 > st.2.2 then
      ((some (population.getD max_fitness_idx []) : Option (List ℕ)),
        fitnesses.getD max_fitness_idx 0)
    else (st.2.1, st.2.2)
  match best.1 with
  | none => none
  | some bt =>
    let children := (List.range (population_size - 1)).map fun c =>
      let parent1 := select_parent (r.sample g c 0) population fitnesses
      let parent2 := select_parent (r.sample g c 1) population fitnesses
      let child := crossover (r.oxCut g c) parent1 parent2
      mutate (r.randFloat g c) mutation_rate (r.mutIdx g c) child
    some (bt :: children, best.1, best.2)

/-- `genetic_algorithm(population_size, generations, mutation_rate)`.  Returns
`none` where Python raises: with `generations = 0` (or an all-infinite-cost
round), `best_tour` is still `None` at `calculate_path_cost(best_tour)`
(`len(None)` raises `TypeError`). -/
def genetic_algorithm (s : TSPSolver) (r : GARandom) (population_size generations : ℕ)
    (mutation_rate : ℚ) : Option (List ℕ × Cost) :=
  if s.cities.length < 2 then some ([], 0)
  else
    let population := (List.range population_size).map fun i => r.shuffle i s.cities
    match (List.range generations).foldl
      (fun acc g => match acc with
        | none => none
        | some st => gaGeneration s r population_size mutation_rate g st)
      (some (population, (none : Option (List ℕ)), (0 : ℚ))) with
    | none => none
    | some st =>
      match st.2.1 with
      | none => none
      | some best_tour => some (best_tour, s.calculate_path_cost best_tour)

end TSPSolver

end TSPSim

namespace TSPSim

theorem indexOf_getD_mem {α : Type} [DecidableEq α] (l : List α) (c d : α) (h : c ∈ l) :
    l.getD (l.indexOf c) d = c := by
  rw [List.getD_eq_getElem l d (List.indexOf_lt_length.2 h)]
  exact List.getElem_indexOf (List.indexOf_lt_length.2 h)

/-- **C6 (amended).** With `generations = 1`, at least 2 cities, and an initial
random population containing some tour of finite (non-negative) cost,
`genetic_algorithm` returns a member of the initial population together with
its (recomputed, finite) cost. -/
theorem C6_ga_one_generation (s : TSPSolver) (r : GARandom) (population_size : ℕ)
    (mutation_rate : ℚ) (h2 : 2 ≤ s.cities.length) (hpos : 1 ≤ population_size)
    (hex : ∃ t ∈ (List.range population_size).map (fun i => r.shuffle i s.cities),
      s.calculate_path_cost t ≠ ⊤)
    (hnn : ∀ t ∈ (List.range population_size).map (fun i => r.shuffle i s.cities),
      (0 : Cost) ≤ s.calculate_path_cost t) :
    ∃ t ∈ (List.range population_size).map (fun i => r.shuffle i s.cities),
      s.genetic_algorithm r population_size 1 mutation_rate
        = some (t, s.calculate_path_cost t) ∧ s.calculate_path_cost t ≠ ⊤ := by
  set P := (List.range population_size).map (fun i => r.shuffle i s.cities) with hP
  set fitnesses := P.map (TSPSolver.gaFitness s) with hF
  have hPlen : P.length = population_size := by rw [hP, List.length_map, List.length_range]
  have hFlen : fitnesses.length = population_size := by rw [hF, List.length_map, hPlen]
  have hFne : fitnesses ≠ [] := by
    intro hc
    rw [hc] at hFlen
    simp at hFlen
    omega
  obtain ⟨t₀, ht₀P, ht₀⟩ := hex
  obtain ⟨c₀, hc₀⟩ := WithTop.ne_top_iff_exists.1 ht₀
  have hc₀nn : (0 : ℚ) ≤ c₀ := by
    have := hnn t₀ ht₀P
    rw [← hc₀] at this
    exact_mod_cast this
  have hfit₀ : 0 < TSPSolver.gaFitness s t₀ := by
    unfold TSPSolver.gaFitness
    rw [if_neg (by rw [← hc₀]; exact WithTop.coe_ne_top)]
    rw [← hc₀, WithTop.untop'_coe]
    exact div_pos one_pos (by linarith)
  have hfit₀_mem : TSPSolver.gaFitness s t₀ ∈ fitnesses := by
    rw [hF]
    exact List.mem_map_of_mem _ ht₀P
  have hmx_pos : 0 < pyMax fitnesses := lt_of_lt_of_le hfit₀ (le_pyMax _ _ hfit₀_mem)
  have hmx_mem : pyMax fitnesses ∈ fitnesses := pyMax_mem _ hFne
  have hidx_lt : fitnesses.indexOf (pyMax fitnesses) < fitnesses.length :=
    List.indexOf_lt_length.2 hmx_mem
  have hgetD : fitnesses.getD (fitnesses.indexOf (pyMax fitnesses)) 0 = pyMax fitnesses :=
    indexOf_getD_mem _ _ _ hmx_mem
  have hidx_ltP : fitnesses.indexOf (pyMax fitnesses) < P.length := by
    rw [hPlen, ← hFlen]
    exact hidx_lt
  set bt := P.getD (fitnesses.indexOf (pyMax fitnesses)) [] with hbt
  have hbt_mem : bt ∈ P := by
    rw [hbt, List.getD_eq_getElem P [] hidx_ltP]
    exact List.getElem_mem hidx_ltP
  have hfit_bt : TSPSolver.gaFitness s bt = pyMax fitnesses := by
    have e3 : fitnesses.getD (fitnesses.indexOf (pyMax fitnesses)) 0
        = TSPSolver.gaFitness s (P.getD (fitnesses.indexOf (pyMax fitnesses)) []) := by
      rw [List.getD_eq_getElem fitnesses 0 hidx_lt, List.getD_eq_getElem P [] hidx_ltP]
      exact List.getElem_map _
    rw [hbt, ← e3]
    exact hgetD
  have hbt_cost : s.calculate_path_cost bt ≠ ⊤ := by
    intro hc
    have hz : TSPSolver.gaFitness s bt = 0 := by
      unfold TSPSolver.gaFitness
      rw [if_pos hc]
    rw [hfit_bt] at hz
    linarith
  refine ⟨bt, hbt_mem, ?_, hbt_cost⟩
  have hgen : ∃ pop' bf, TSPSolver.gaGeneration s r population_size mutation_rate 0
      (P, (none : Option (List ℕ)), (0 : ℚ)) = some (pop', some bt, bf) := by
    unfold TSPSolver.gaGeneration
    simp only
    rw [if_pos (by rw [hgetD]; exact hmx_pos)]
    exact ⟨_, _, rfl⟩
  obtain ⟨pop', bf, hgen⟩ := hgen
  unfold TSPSolver.genetic_algorithm
  rw [if_neg (by omega)]
  have hr1 : List.range 1 = [0] := rfl
  rw [hr1]
  simp only [List.foldl_cons, List.foldl_nil]
  rw [hgen]

end TSPSim

namespace TSPSim

/-- **C6, counterexample.** With `generations = 0` the loop never runs,
`best_tour` is still `None`, and `calculate_path_cost(best_tour)` raises
`TypeError` (`len(None)`): the function returns nothing, not a tour from the
initial population. -/
theorem C6_counterexample :
    let s : TSPSolver := ⟨[0, 1], [((0, 1), 1), ((1, 0), 1)]⟩
    let r : GARandom :=
      ⟨fun _ l => l, fun _ _ _ => [], fun _ _ => (0, 0), fun _ _ => 1, fun _ _ => (0, 0)⟩
    s.genetic_algorithm r 100 0 (1 / 100) = none := rfl

/-- Witness for `C6_ga_one_generation` with the identity-shuffle oracle and
the default population size. -/
theorem C6_witness :
    let s : TSPSolver := ⟨[0, 1], [((0, 1), 1), ((1, 0), 1)]⟩
    let r : GARandom :=
      ⟨fun _ l => l, fun _ _ _ => [], fun _ _ => (0, 0), fun _ _ => 1, fun _ _ => (0, 0)⟩
    2 ≤ s.cities.length ∧
      (∃ t ∈ (List.range 100).map (fun i => r.shuffle i s.cities),
        s.calculate_path_cost t ≠ ⊤) ∧
      ∃ t ∈ (List.range 100).map (fun i => r.shuffle i s.cities),
        s.genetic_algorithm r 100 1 (1 / 100) = some (t, s.calculate_path_cost t) ∧
          s.calculate_path_cost t ≠ ⊤ :=
  ⟨by decide, by decide,
    C6_ga_one_generation ⟨[0, 1], [((0, 1), 1), ((1, 0), 1)]⟩
      ⟨fun _ l => l, fun _ _ _ => [], fun _ _ => (0, 0), fun _ _ => 1, fun _ _ => (0, 0)⟩
      100 (1 / 100) (by decide) (by decide) (by decide) (by decide)⟩

end TSPSim

/-! ## `kirchhoff_module.py` — the computational core of `calculate_circuit` -/

namespace KirchhoffSim

/-- Component kinds used by the simulator (the `'current_source'` string is
mentioned in a comment of the source but never constructed). -/
inductive CompType : Type
  | resistor
  | voltage_source
deriving DecidableEq

/-- `CircuitComponent(node1, node2, value, comp_type)`.  The mutable
`self.current` field is a GUI-only output cache and not part of the model. -/
structure CircuitComponent : Type where
  node1 : ℕ
  node2 : ℕ
  value : ℚ
  type : CompType
deriving DecidableEq

/-- `node_list = sorted([n for n in self.nodes.keys() if n != ground])`. -/
def node_list (nodes : List ℕ) (ground : ℕ) : List ℕ :=
  List.insertionSort (· ≤ ·) (nodes.filter (fun n => n ≠ ground))

theorem mem_node_list {nodes : List ℕ} {ground N : ℕ} (h1 : N ∈ nodes) (h2 : N ≠ ground) :
    N ∈ node_list nodes ground := by
  unfold node_list
  rw [List.Perm.mem_iff (List.perm_insertionSort _ _), List.mem_filter]
  exact ⟨h1, by simpa using h2⟩

/-- `G[i][j] += v` on a functional matrix. -/
def gAdd (G : ℕ → ℕ → ℚ) (i j : ℕ) (v : ℚ) : ℕ → ℕ → ℚ :=
  fun r c => if r = i ∧ c = j then G r c + v else G r c

/-- One iteration of the `for comp in self.components` stamping loop.
A resistor with both endpoints off ground gets the standard 4-entry stamp; a
resistor with one endpoint on ground only the other diagonal; a voltage source
with one endpoint on ground overwrites the other endpoint's row with an
identity row and pins `I` to its value; anything else is skipped.  (A 0 Ω
resistor would raise `ZeroDivisionError` in Python at `1.0 / comp.value`;
theorems about the assembly therefore assume non-zero resistances.) -/
def process_component (ground : ℕ) (nl : List ℕ)
    (st : (ℕ → ℕ → ℚ) × (ℕ → ℚ)) (comp : CircuitComponent) : (ℕ → ℕ → ℚ) × (ℕ → ℚ) :=
  match comp.type with
  | CompType.resistor =>
    let conductance := 1 / comp.value
    let idx1 := nl.indexOf comp.node1
    let idx2 := nl.indexOf comp.node2
    let G1 :=
      if comp.node1 ≠ ground ∧ comp.node1 ∈ nl then
        if comp.node2 ≠ ground ∧ comp.node2 ∈ nl then
          gAdd (gAdd (gAdd (gAdd st.1 idx1 idx1 conductance)
            idx1 idx2 (-conductance)) idx2 idx1 (-conductance)) idx2 idx2 conductance
        else gAdd st.1 idx1 idx1 conductance
      else st.1
    let G2 :=
      if comp.node2 ≠ ground ∧ comp.node2 ∈ nl ∧ comp.node1 = ground then
        gAdd G1 idx2 idx2 conductance
      else G1
    (G2, st.2)
  | CompType.voltage_source =>
    if comp.node1 = ground ∧ comp.node2 ∈ nl then
      let idx := nl.indexOf comp.node2
      (fun r c => if r = idx then (if c = idx then 1 else 0) else st.1 r c,
       fun k => if k = idx then comp.value else st.2 k)
    else if comp.node2 = ground ∧ comp.node1 ∈ nl then
      let idx := nl.indexOf comp.node1
      (fun r c => if r = idx then (if c = idx then 1 else 0) else st.1 r c,
       fun k => if k = idx then comp.value else st.2 k)
    else (st.1, st.2)

/-- `G = np.zeros((n, n))`, `I = np.zeros(n)`, then the stamping loop. -/
def assembleGI (nodes : List ℕ) (ground : ℕ) (components : List CircuitComponent) :
    (ℕ → ℕ → ℚ) × (ℕ → ℚ) :=
  components.foldl (process_component ground (node_list nodes ground))
    ((fun _ _ => 0), (fun _ => 0))

/-- Determinant of the top-left `k × k` block, by Laplace expansion along the
first row. -/
def detQ : ℕ → (ℕ → ℕ → ℚ) → ℚ
  | 0, _ => 1
  | k + 1, A =>
    ((List.range (k + 1)).map fun j =>
      (-1 : ℚ) ^ j * A 0 j * detQ k (fun r c => A (r + 1) (if c < j then c else c + 1))).sum

/-- Column replacement for Cramer's rule. -/
def replaceCol (A : ℕ → ℕ → ℚ) (j : ℕ) (b : ℕ → ℚ) : ℕ → ℕ → ℚ :=
  fun r c => if c = j then b r else A r c

/-- Model of `np.linalg.solve(G, I)`: raises `LinAlgError` exactly on a
singular matrix, otherwise returns the unique solution of `G·V = I`, here in
Cramer form. -/
def npSolve (k : ℕ) (A : ℕ → ℕ → ℚ) (b : ℕ → ℚ) : Option (ℕ → ℚ) :=
  if detQ k A = 0 then none
  else some (fun j => detQ k (replaceCol A j b) / detQ k A)

/-- Per-component figures printed in the results pane: a resistor reports
`abs(current)` and `abs(current)**2 * value`; a voltage source reports its
fixed value. -/
inductive BranchResult : Type
  | resistorInfo (current : ℚ) (power : ℚ)
  | sourceInfo (voltage : ℚ)
deriving DecidableEq

/-- Outcome of `calculate_circuit`, one constructor per exit path:
too little input, `"Ground node … does not exist"`, `"Need at least one
non-ground node"`, `LinAlgError`, or the computed results. -/
inductive CircuitResult : Type
  | insufficientInput
  | invalidReference
  | needNonGround
  | singular
  | success (voltages : List (ℕ × ℚ)) (branches : List BranchResult)
deriving DecidableEq

/-- The computational core of `KirchhoffSimulator.calculate_circuit` (ground
id already parsed; GUI rendering dropped). -/
def calculate_circuit (nodes : List ℕ) (ground : ℕ)
    (components : List CircuitComponent) : CircuitResult :=
  if nodes.length < 2 ∨ components.length = 0 then CircuitResult.insufficientInput
  else if ground ∉ nodes then CircuitResult.invalidReference
  else
    let nl := node_list nodes ground
    if nl.length = 0 then CircuitResult.needNonGround
    else
      let st := assembleGI nodes ground components
      match npSolve nl.length st.1 st.2 with
      | none => CircuitResult.singular
      | some V =>
        let voltageOf := fun nd =>
          if nd = ground then (0 : ℚ) else if nd ∈ nl then V (nl.indexOf nd) else 0
        let voltages := (ground, (0 : ℚ)) :: nl.map (fun nd => (nd, V (nl.indexOf nd)))
        let branches := components.map fun comp =>
          match comp.type with
          | CompType.resistor =>
            let current := (voltageOf comp.node1 - voltageOf comp.node2) / comp.value
            BranchResult.resistorInfo |current| (|current| ^ 2 * comp.value)
          | CompType.voltage_source => BranchResult.sourceInfo comp.value
        CircuitResult.success voltages branches

end KirchhoffSim

/-! ## Row-preservation lemmas for the stamping loop -/

namespace KirchhoffSim

theorem gAdd_row_ne {i r : ℕ} (h : r ≠ i) (G : ℕ → ℕ → ℚ) (j c : ℕ) (v : ℚ) :
    gAdd G i j v r c = G r c := by
  unfold gAdd
  exact if_neg (fun hc => h hc.1)

theorem idxNe {nl : List ℕ} {a N : ℕ} (ha : a ∈ nl) (hN : N ∈ nl) (h : a ≠ N) :
    nl.indexOf N ≠ nl.indexOf a :=
  fun he => h ((List.indexOf_inj ha hN).1 he.symm)

/-- A component incident to neither endpoint of `N` leaves row `indexOf N` of
`G` and entry `indexOf N` of `I` untouched (all writes are guarded by
membership of the written node in `node_list`, and `indexOf` is injective on
members). -/
theorem process_component_preserve (ground : ℕ) (nl : List ℕ)
    (st : (ℕ → ℕ → ℚ) × (ℕ → ℚ)) (comp : CircuitComponent) {N : ℕ}
    (hN : N ∈ nl) (h1 : comp.node1 ≠ N) (h2 : comp.node2 ≠ N) :
    (∀ j, (process_component ground nl st comp).1 (nl.indexOf N) j
        = st.1 (nl.indexOf N) j) ∧
      (process_component ground nl st comp).2 (nl.indexOf N) = st.2 (nl.indexOf N) := by
  obtain ⟨n1, n2, v, t⟩ := comp
  replace h1 : n1 ≠ N := h1
  replace h2 : n2 ≠ N := h2
  cases t with
  | resistor =>
    refine ⟨fun j => ?_, rfl⟩
    simp only [process_component]
    by_cases hA : n1 ≠ ground ∧ n1 ∈ nl
    · have ne1 := idxNe hA.2 hN h1
      by_cases hB : n2 ≠ ground ∧ n2 ∈ nl
      · have ne2 := idxNe hB.2 hN h2
        by_cases hC : n2 ≠ ground ∧ n2 ∈ nl ∧ n1 = ground
        · rw [if_pos hC, if_pos hA, if_pos hB]
          simp only [gAdd_row_ne ne2, gAdd_row_ne ne1]
        · rw [if_neg hC, if_pos hA, if_pos hB]
          simp only [gAdd_row_ne ne2, gAdd_row_ne ne1]
      · have hCn : ¬(n2 ≠ ground ∧ n2 ∈ nl ∧ n1 = ground) :=
          fun hc => hB ⟨hc.1, hc.2.1⟩
        have ne1 := idxNe hA.2 hN h1
        rw [if_neg hCn, if_pos hA, if_neg hB]
        simp only [gAdd_row_ne ne1]
    · by_cases hC : n2 ≠ ground ∧ n2 ∈ nl ∧ n1 = ground
      · have ne2 := idxNe hC.2.1 hN h2
        rw [if_pos hC, if_neg hA]
        simp only [gAdd_row_ne ne2]
      · rw [if_neg hC, if_neg hA]
  | voltage_source =>
    simp only [process_component]
    by_cases hA : n1 = ground ∧ n2 ∈ nl
    · have ne2 := idxNe hA.2 hN h2
      rw [if_pos hA]
      refine ⟨fun j => ?_, ?_⟩ <;> simp only [if_neg ne2]
    · by_cases hB : n2 = ground ∧ n1 ∈ nl
      · have ne1 := idxNe hB.2 hN h1
        rw [if_neg hA, if_pos hB]
        refine ⟨fun j => ?_, ?_⟩ <;> simp only [if_neg ne1]
      · rw [if_neg hA, if_neg hB]
        exact ⟨fun j => rfl, rfl⟩

/-- Preservation along a whole run of components, none incident to `N`. -/
theorem foldl_process_preserve (ground : ℕ) (nl : List ℕ) {N : ℕ} (hN : N ∈ nl) :
    ∀ (comps : List CircuitComponent),
      (∀ c ∈ comps, c.node1 ≠ N ∧ c.node2 ≠ N) →
      ∀ st : (ℕ → ℕ → ℚ) × (ℕ → ℚ),
        (∀ j, (comps.foldl (process_component ground nl) st).1 (nl.indexOf N) j
            = st.1 (nl.indexOf N) j) ∧
          (comps.foldl (process_component ground nl) st).2 (nl.indexOf N)
            = st.2 (nl.indexOf N) := by
  intro comps
  induction comps with
  | nil => exact fun _ st => ⟨fun j => rfl, rfl⟩
  | cons c cs ih =>
    intro hcomps st
    have hc := hcomps c (List.mem_cons_self c cs)
    have hpres := process_component_preserve ground nl st c hN hc.1 hc.2
    have hrest := ih (fun x hx => hcomps x (List.mem_cons_of_mem c hx))
      (process_component ground nl st c)
    rw [List.foldl_cons]
    exact ⟨fun j => (hrest.1 j).trans (hpres.1 j), hrest.2.trans hpres.2⟩

/-- Processing a voltage source with exactly one endpoint on ground leaves an
identity row at the other endpoint and pins its `I` entry. -/
theorem process_source_row (ground : ℕ) (nl : List ℕ)
    (st : (ℕ → ℕ → ℚ) × (ℕ → ℚ)) (comp : CircuitComponent) {N : ℕ}
    (htype : comp.type = CompType.voltage_source)
    (hcase : (comp.node1 = ground ∧ comp.node2 = N) ∨
      (comp.node2 = ground ∧ comp.node1 = N))
    (hNg : N ≠ ground) (hN : N ∈ nl) :
    (∀ j, (process_component ground nl st comp).1 (nl.indexOf N) j
        = if j = nl.indexOf N then 1 else 0) ∧
      (process_component ground nl st comp).2 (nl.indexOf N) = comp.value := by
  obtain ⟨n1, n2, v, t⟩ := comp
  replace htype : t = CompType.voltage_source := htype
  subst htype
  simp only [process_component]
  rcases hcase with ⟨hg, hn⟩ | ⟨hg, hn⟩
  · replace hg : n1 = ground := hg
    replace hn : n2 = N := hn
    subst hg
    subst hn
    rw [if_pos ⟨rfl, hN⟩]
    constructor
    · intro j
      show (if nl.indexOf n2 = nl.indexOf n2
          then (if j = nl.indexOf n2 then (1 : ℚ) else 0)
          else st.1 (nl.indexOf n2) j) = if j = nl.indexOf n2 then 1 else 0
      rw [if_pos rfl]
    · show (if nl.indexOf n2 = nl.indexOf n2 then v else st.2 (nl.indexOf n2)) = v
      rw [if_pos rfl]
  · replace hg : n2 = ground := hg
    replace hn : n1 = N := hn
    subst hg
    subst hn
    have hnot : ¬(n1 = n2 ∧ n2 ∈ nl) := fun hc => hNg hc.1
    rw [if_neg hnot, if_pos ⟨rfl, hN⟩]
    constructor
    · intro j
      show (if nl.indexOf n1 = nl.indexOf n1
          then (if j = nl.indexOf n1 then (1 : ℚ) else 0)
          else st.1 (nl.indexOf n1) j) = if j = nl.indexOf n1 then 1 else 0
      rw [if_pos rfl]
    · show (if nl.indexOf n1 = nl.indexOf n1 then v else st.2 (nl.indexOf n1)) = v
      rw [if_pos rfl]

end KirchhoffSim

namespace KirchhoffSim

/-- A matrix with an all-zero row inside the considered block is singular. -/
theorem detQ_row_zero : ∀ (k : ℕ) (A : ℕ → ℕ → ℚ) (i : ℕ), i < k → (∀ j, A i j = 0) →
    detQ k A = 0 := by
  intro k
  induction k with
  | zero => exact fun A i hi _ => absurd hi (Nat.not_lt_zero i)
  | succ k ih =>
    intro A i hi hrow
    rw [detQ]
    apply List.sum_eq_zero
    intro x hx
    rw [List.mem_map] at hx
    obtain ⟨j, hj, rfl⟩ := hx
    rcases Nat.eq_zero_or_pos i with hi0 | hipos
    · subst hi0
      rw [hrow j]
      ring
    · obtain ⟨i', rfl⟩ : ∃ m, i = m + 1 := ⟨i - 1, by omega⟩
      rw [ih (fun r c => A (r + 1) (if c < j then c else c + 1)) i' (by omega)
        (fun c => hrow _)]
      ring

/-- C10: a voltage source floating off ground (neither endpoint equal to the
ground node) is skipped by the stamping loop: the state `(G, I)` after
processing it is exactly the state before it. -/
theorem C10_floating_source_noop (ground : ℕ) (nl : List ℕ)
    (st : (ℕ → ℕ → ℚ) × (ℕ → ℚ)) (comp : CircuitComponent)
    (htype : comp.type = CompType.voltage_source)
    (h1 : comp.node1 ≠ ground) (h2 : comp.node2 ≠ ground) :
    process_component ground nl st comp = st := by
  obtain ⟨n1, n2, v, t⟩ := comp
  replace htype : t = CompType.voltage_source := htype
  subst htype
  replace h1 : n1 ≠ ground := h1
  replace h2 : n2 ≠ ground := h2
  simp only [process_component]
  rw [if_neg (fun hc => h1 hc.1), if_neg (fun hc => h2 hc.1)]

theorem C10_witness :
    process_component 0 [1] ((fun _ _ => (0 : ℚ)), (fun _ => (0 : ℚ)))
        ⟨2, 3, 5, CompType.voltage_source⟩
      = ((fun _ _ => (0 : ℚ)), (fun _ => (0 : ℚ))) :=
  C10_floating_source_noop 0 [1] ((fun _ _ => 0), (fun _ => 0))
    ⟨2, 3, 5, CompType.voltage_source⟩ rfl (by decide) (by decide)

/-- C3's claim fails as stated: the identity row survives only when no LATER
component stamps onto it.  Here the 5 V source comes first and a 10 Ω resistor
between the same two nodes comes after it, and the resistor's `+= 1/10`
lands on the identity row, leaving `G[0][0] = 11/10 ≠ 1`. -/
theorem C3_counterexample :
    (assembleGI [0, 1] 0 [⟨0, 1, 5, CompType.voltage_source⟩,
        ⟨0, 1, 10, CompType.resistor⟩]).1 0 0 = 11 / 10 ∧
      ((11 : ℚ) / 10 ≠ 1) := by
  constructor
  · decide
  · decide

/-- C3 (amended): for a voltage source with exactly one endpoint on ground,
the other endpoint's row of `G` is the identity row and its `I` entry is the
source value, PROVIDED no component later in the list is incident to that
endpoint; the row survives the components placed before the source
unconditionally, but not those after it. -/
theorem C3_source_row_identity (nodes : List ℕ) (ground : ℕ)
    (pre post : List CircuitComponent) (vc : CircuitComponent) (N : ℕ)
    (htype : vc.type = CompType.voltage_source)
    (hcase : (vc.node1 = ground ∧ vc.node2 = N) ∨
      (vc.node2 = ground ∧ vc.node1 = N))
    (hNg : N ≠ ground) (hNmem : N ∈ nodes)
    (hpost : ∀ c ∈ post, c.node1 ≠ N ∧ c.node2 ≠ N)
    (_hres0 : ∀ c ∈ pre ++ vc :: post,
      c.type = CompType.resistor → c.value ≠ 0) :
    (∀ j, (assembleGI nodes ground (pre ++ vc :: post)).1
        ((node_list nodes ground).indexOf N) j
        = if j = (node_list nodes ground).indexOf N then 1 else 0) ∧
      (assembleGI nodes ground (pre ++ vc :: post)).2
        ((node_list nodes ground).indexOf N) = vc.value := by
  have hN : N ∈ node_list nodes ground := mem_node_list hNmem hNg
  rw [assembleGI, List.foldl_append, List.foldl_cons]
  have hpres := foldl_process_preserve ground (node_list nodes ground) hN post hpost
    (process_component ground (node_list nodes ground)
      (pre.foldl (process_component ground (node_list nodes ground))
        ((fun _ _ => 0), (fun _ => 0))) vc)
  have hsrc := process_source_row ground (node_list nodes ground)
    (pre.foldl (process_component ground (node_list nodes ground))
      ((fun _ _ => 0), (fun _ => 0))) vc htype hcase hNg hN
  exact ⟨fun j => (hpres.1 j).trans (hsrc.1 j), hpres.2.trans hsrc.2⟩

theorem C3_witness :
    (assembleGI [0, 1] 0 ([⟨0, 1, 10, CompType.resistor⟩]
        ++ ⟨0, 1, 5, CompType.voltage_source⟩ :: [])).1
        ((node_list [0, 1] 0).indexOf 1) 0 = 1 ∧
      (assembleGI [0, 1] 0 ([⟨0, 1, 10, CompType.resistor⟩]
        ++ ⟨0, 1, 5, CompType.voltage_source⟩ :: [])).2
        ((node_list [0, 1] 0).indexOf 1) = 5 := by
  have h := C3_source_row_identity [0, 1] 0 [⟨0, 1, 10, CompType.resistor⟩] []
    ⟨0, 1, 5, CompType.voltage_source⟩ 1 rfl (Or.inl ⟨rfl, rfl⟩) (by decide)
    (by decide) (by decide) (by decide)
  exact ⟨(h.1 0).trans (by decide), h.2⟩

/-- C7: a non-ground node with no incident component yields an all-zero row in
the assembled `G`, `np.linalg.solve` raises `LinAlgError` (singular matrix),
and that outcome is a different exit of `calculate_circuit` than the
ground-node-missing error. -/
theorem C7_isolated_node_singular (nodes : List ℕ) (ground N : ℕ)
    (comps : List CircuitComponent)
    (hlen : 2 ≤ nodes.length) (hcne : comps ≠ [])
    (hg : ground ∈ nodes) (hNmem : N ∈ nodes) (hNg : N ≠ ground)
    (hiso : ∀ c ∈ comps, c.node1 ≠ N ∧ c.node2 ≠ N)
    (_hres0 : ∀ c ∈ comps, c.type = CompType.resistor → c.value ≠ 0) :
    (∀ j, (assembleGI nodes ground comps).1
        ((node_list nodes ground).indexOf N) j = 0) ∧
      calculate_circuit nodes ground comps = CircuitResult.singular ∧
      CircuitResult.singular ≠ CircuitResult.invalidReference := by
  have hN : N ∈ node_list nodes ground := mem_node_list hNmem hNg
  have hrow : ∀ j, (assembleGI nodes ground comps).1
      ((node_list nodes ground).indexOf N) j = 0 :=
    fun j => (foldl_process_preserve ground (node_list nodes ground) hN comps hiso
      ((fun _ _ => 0), (fun _ => 0))).1 j
  refine ⟨hrow, ?_, by decide⟩
  have hdet : detQ (node_list nodes ground).length
      (assembleGI nodes ground comps).1 = 0 :=
    detQ_row_zero _ _ _ (List.indexOf_lt_length.2 hN) hrow
  have hc1 : ¬(nodes.length < 2 ∨ comps.length = 0) := by
    rw [not_or]
    exact ⟨by omega, fun h => hcne (List.length_eq_zero.mp h)⟩
  have hc2 : ¬(ground ∉ nodes) := fun h => h hg
  have hc3 : ¬((node_list nodes ground).length = 0) := by
    intro h
    rw [List.length_eq_zero] at h
    rw [h] at hN
    exact absurd hN (List.not_mem_nil N)
  have hns : npSolve (node_list nodes ground).length
      (assembleGI nodes ground comps).1 (assembleGI nodes ground comps).2 = none := by
    rw [npSolve, if_pos hdet]
  simp only [calculate_circuit]
  rw [if_neg hc1, if_neg hc2, if_neg hc3, hns]

theorem C7_witness :
    (assembleGI [0, 1, 2] 0 [⟨0, 1, 10, CompType.resistor⟩]).1
        ((node_list [0, 1, 2] 0).indexOf 2) 0 = 0 ∧
      calculate_circuit [0, 1, 2] 0 [⟨0, 1, 10, CompType.resistor⟩]
        = CircuitResult.singular ∧
      CircuitResult.singular ≠ CircuitResult.invalidReference := by
  have h := C7_isolated_node_singular [0, 1, 2] 0 2 [⟨0, 1, 10, CompType.resistor⟩]
    (by decide) (by decide) (by decide) (by decide) (by decide) (by decide) (by decide)
  exact ⟨h.1 0, h.2⟩

/-- C5: the two-node textbook circuit (ground 0, a 10 Ω resistor and a 5 V
source both between nodes 0 and 1) solves to V(1) = 5, resistor current of
magnitude 1/2 A and power 5/2 W. -/
theorem C5_textbook_circuit :
    calculate_circuit [0, 1] 0
        [⟨0, 1, 10, CompType.resistor⟩, ⟨0, 1, 5, CompType.voltage_source⟩]
      = CircuitResult.success [(0, 0), (1, 5)]
          [BranchResult.resistorInfo (1 / 2) (5 / 2), BranchResult.sourceInfo 5] := by
  decide

end KirchhoffSim
